import Mathlib

/-!
Verification of the devproc process-orchestration core.

Each definition below is a shallow embedding of a function from the
source tree (`src/process/spawner.ts`, `src/process/manager.ts`,
`src/process/healthcheck.ts`, `src/config/loader.ts`, the log-buffer
hook, and `src/process/types.ts`).  Strings are modelled as `List Char`
where character-level recursion is needed; JavaScript `Map`s are
modelled as insertion-ordered association lists; asynchronous waits
(child exit, probe timeout) are modelled as explicit inputs.
-/

namespace Devproc

/-! ## Command tokenizer (`parseCommand`, spawner.ts) -/

/-- One step state of the tokenizer: remaining input, open quote (if any),
current token accumulator, tokens so far.  Mirrors the `for` loop of
`parseCommand` character by character. -/
def parseCommandAux : List Char → Option Char → List Char → List (List Char) → List (List Char)
  | [], _, current, args => if current = [] then args else args ++ [current]
  | c :: rest, some q, current, args =>
      if c = q then parseCommandAux rest none current args
      else parseCommandAux rest (some q) (current ++ [c]) args
  | c :: rest, none, current, args =>
      if c = '"' ∨ c = '\'' then parseCommandAux rest (some c) current args
      else if c = ' ' ∨ c = '\t' then
        if current = [] then parseCommandAux rest none [] args
        else parseCommandAux rest none [] (args ++ [current])
      else parseCommandAux rest none (current ++ [c]) args

/-- `parseCommand` from spawner.ts: split a command string into arguments,
honouring single and double quotes. -/
def parseCommand (cmd : List Char) : List (List Char) :=
  parseCommandAux cmd none [] []

/-- Every token pushed by the tokenizer is non-empty, because both push
sites are guarded by `if (current)`. -/
theorem parseCommandAux_ne_nil (cmd : List Char) :
    ∀ (iq : Option Char) (current : List Char) (args : List (List Char)),
      (∀ t ∈ args, t ≠ []) → ∀ t ∈ parseCommandAux cmd iq current args, t ≠ [] := by
  induction cmd with
  | nil =>
      intro iq current args hargs t ht
      by_cases hc : current = []
      · simp only [parseCommandAux, if_pos hc] at ht
        exact hargs t ht
      · simp only [parseCommandAux, if_neg hc] at ht
        rcases List.mem_append.mp ht with h | h
        · exact hargs t h
        · simp only [List.mem_singleton] at h
          subst h
          exact hc
  | cons c rest ih =>
      intro iq current args hargs t ht
      match iq with
      | some q =>
          by_cases hq : c = q
          · simp only [parseCommandAux, if_pos hq] at ht
            exact ih none current args hargs t ht
          · simp only [parseCommandAux, if_neg hq] at ht
            exact ih (some q) (current ++ [c]) args hargs t ht
      | none =>
          by_cases hqc : c = '"' ∨ c = '\''
          · simp only [parseCommandAux, if_pos hqc] at ht
            exact ih (some c) current args hargs t ht
          · by_cases hws : c = ' ' ∨ c = '\t'
            · by_cases hc : current = []
              · simp only [parseCommandAux, if_neg hqc, if_pos hws, if_pos hc] at ht
                exact ih none [] args hargs t ht
              · simp only [parseCommandAux, if_neg hqc, if_pos hws, if_neg hc] at ht
                refine ih none [] (args ++ [current]) ?_ t ht
                intro u hu
                rcases List.mem_append.mp hu with h | h
                · exact hargs u h
                · simp only [List.mem_singleton] at h
                  subst h
                  exact hc
            · simp only [parseCommandAux, if_neg hqc, if_neg hws] at ht
              exact ih none (current ++ [c]) args hargs t ht

/-- Inside an unterminated quote, every remaining character (including
whitespace) is appended to the current token. -/
theorem parseCommandAux_unterminated (w : List Char) :
    ∀ (q : Char) (current : List Char) (args : List (List Char)), q ∉ w →
      parseCommandAux w (some q) current args =
        (if current ++ w = [] then args else args ++ [current ++ w]) := by
  induction w with
  | nil =>
      intro q current args _
      simp [parseCommandAux]
  | cons c rest ih =>
      intro q current args hq
      have hcq : ¬ c = q := by
        intro h
        exact hq (h ▸ List.mem_cons_self c rest)
      have hrest : q ∉ rest := fun h => hq (List.mem_cons_of_mem c h)
      simp only [parseCommandAux, if_neg hcq]
      rw [ih q (current ++ [c]) args hrest]
      simp

/-- C10: command tokenization returns only non-empty tokens; a quoted
empty string surrounded by whitespace contributes no argument; an
unterminated quote consumes the remainder of the string into the
current token without error. -/
theorem c10_tokenizer :
    (∀ cmd : List Char, ∀ t ∈ parseCommand cmd, t ≠ []) ∧
    parseCommand "a \"\" b".data = ["a".data, "b".data] ∧
    parseCommand "a '' b".data = ["a".data, "b".data] ∧
    (∀ w : List Char, '"' ∉ w →
      parseCommand ('"' :: w) = if w = [] then [] else [w]) := by
  refine ⟨?_, by decide, by decide, ?_⟩
  · intro cmd t ht
    exact parseCommandAux_ne_nil cmd none [] [] (by simp) t ht
  · intro w hw
    show parseCommandAux ('"' :: w) none [] [] = _
    simp only [parseCommandAux, if_pos (Or.inl rfl)]
    rw [parseCommandAux_unterminated w '"' [] [] hw]
    simp

/-- C10 witness: the theorem applied at concrete inputs. -/
theorem c10_tokenizer_witness :
    "ab".data ≠ [] ∧ parseCommand ('"' :: "x y".data) = ["x y".data] := by
  refine ⟨?_, ?_⟩
  · exact c10_tokenizer.1 "ab".data "ab".data (by decide)
  · have h := c10_tokenizer.2.2.2 "x y".data (by decide)
    simpa using h

/-! ## Stream line reader (`readLines`, spawner.ts) -/

/-- `buffer.split("\n")` on character lists: splitting `"a\nb"` gives
`["a","b"]`, splitting `"a\n"` gives `["a",""]`. -/
def splitNl : List Char → List (List Char)
  | [] => [[]]
  | c :: rest =>
      if c = '\n' then [] :: splitNl rest
      else
        match splitNl rest with
        | [] => [[c]]
        | l :: ls => (c :: l) :: ls

/-- One pass of `readLines`: each chunk is appended to the carry-over
buffer, complete lines are split off (`buffer = lines.pop()`), and only
truthy (non-empty) lines are yielded; at end-of-stream a non-empty
buffer is yielded. -/
def readLinesAux : List (List Char) → List Char → List (List Char)
  | [], buffer => if buffer = [] then [] else [buffer]
  | chunk :: rest, buffer =>
      let parts := splitNl (buffer ++ chunk)
      (parts.dropLast.filter (fun l => !l.isEmpty)) ++ readLinesAux rest (parts.getLastD [])

/-- `readLines` from spawner.ts over a chunked byte stream, starting
with an empty buffer. -/
def readLines (chunks : List (List Char)) : List (List Char) :=
  readLinesAux chunks []

theorem splitNl_ne_nil (s : List Char) : splitNl s ≠ [] := by
  cases s with
  | nil => simp [splitNl]
  | cons c rest =>
      simp only [splitNl]
      split
      · simp
      · split
        · simp
        · simp

theorem splitNl_parts_no_newline (s : List Char) :
    ∀ p ∈ splitNl s, '\n' ∉ p := by
  induction s with
  | nil =>
      intro p hp
      simp only [splitNl, List.mem_singleton] at hp
      subst hp
      simp
  | cons c rest ih =>
      intro p hp
      by_cases hc : c = '\n'
      · simp only [splitNl, if_pos hc, List.mem_cons] at hp
        rcases hp with h | h
        · subst h; simp
        · exact ih p h
      · simp only [splitNl, if_neg hc] at hp
        rcases hsplit : splitNl rest with _ | ⟨l, ls⟩
        · exact absurd hsplit (splitNl_ne_nil rest)
        · rw [hsplit] at hp
          simp only [List.mem_cons] at hp
          rcases hp with h | h
          · subst h
            intro hmem
            rcases List.mem_cons.mp hmem with h2 | h2
            · exact hc h2.symm
            · exact ih l (hsplit ▸ List.mem_cons_self l ls) h2
          · exact ih p (hsplit ▸ List.mem_cons_of_mem l h)

theorem splitNl_of_no_newline (s : List Char) (h : '\n' ∉ s) :
    splitNl s = [s] := by
  induction s with
  | nil => simp [splitNl]
  | cons c rest ih =>
      have hc : ¬ c = '\n' := fun hcc => h (hcc ▸ List.mem_cons_self c rest)
      have hrest : '\n' ∉ rest := fun hr => h (List.mem_cons_of_mem c hr)
      simp only [splitNl, if_neg hc, ih hrest]

/-- Prepend a carried-over buffer to the head of a split. -/
def consHead (p : List Char) : List (List Char) → List (List Char)
  | [] => [p]
  | l :: ls => (p ++ l) :: ls

theorem consHead_ne_nil (p : List Char) (ls : List (List Char)) :
    consHead p ls ≠ [] := by
  cases ls <;> simp [consHead]

theorem getLastD_append_of_ne_nil {α : Type} (A B : List α) (d : α) (h : B ≠ []) :
    (A ++ B).getLastD d = B.getLastD d := by
  rcases hB : B.getLast? with _ | x
  · exact absurd (List.getLast?_eq_none_iff.mp hB) h
  · simp [List.getLastD_eq_getLast?, List.getLast?_append, hB, Option.or]

theorem splitNl_cons_nl (rest : List Char) :
    splitNl ('\n' :: rest) = [] :: splitNl rest := by
  rw [splitNl, if_pos rfl]

theorem splitNl_cons_of_ne (c : Char) (rest : List Char) (hc : ¬ c = '\n')
    (l : List Char) (ls : List (List Char)) (h : splitNl rest = l :: ls) :
    splitNl (c :: rest) = (c :: l) :: ls := by
  rw [splitNl, if_neg hc, h]

/-- Splitting a concatenation: the last (unterminated) part of `xs`
merges with the first part of `ys`. -/
theorem splitNl_append (xs ys : List Char) :
    splitNl (xs ++ ys) =
      (splitNl xs).dropLast ++ consHead ((splitNl xs).getLastD []) (splitNl ys) := by
  rcases hys : splitNl ys with _ | ⟨m, ms⟩
  · exact absurd hys (splitNl_ne_nil ys)
  induction xs with
  | nil => simp [splitNl, consHead, hys]
  | cons c rest ih =>
      rcases hrest : splitNl rest with _ | ⟨l, ls⟩
      · exact absurd hrest (splitNl_ne_nil rest)
      rw [hrest] at ih
      by_cases hc : c = '\n'
      · subst hc
        rw [List.cons_append, splitNl_cons_nl, splitNl_cons_nl, ih, hrest]
        cases ls <;> simp [consHead, hys]
      · rw [List.cons_append, splitNl_cons_of_ne c rest hc l ls hrest]
        cases ls with
        | nil =>
            rw [splitNl_cons_of_ne c (rest ++ ys) hc (l ++ m) ms (by simpa [consHead, hys] using ih)]
            simp [consHead, hys]
        | cons l2 ls2 =>
            rw [splitNl_cons_of_ne c (rest ++ ys) hc
              l ((l2 :: ls2).dropLast ++
                consHead ((l :: l2 :: ls2).getLastD []) (m :: ms)) ?heq]
            case heq =>
              rw [ih]
              simp
            simp [consHead, hys]

/-- What the reader emits for a fully concatenated stream. -/
def emitLines (s : List Char) : List (List Char) :=
  ((splitNl s).dropLast.filter (fun l => !l.isEmpty)) ++
    (if (splitNl s).getLastD [] = [] then [] else [(splitNl s).getLastD []])

theorem getLastD_mem_of_ne_nil {α : Type} (l : List α) (d : α) (h : l ≠ []) :
    l.getLastD d ∈ l := by
  rw [List.getLastD_eq_getLast?, List.getLast?_eq_getLast_of_ne_nil h]
  exact List.getLast_mem h

theorem readLinesAux_eq_emitLines (chunks : List (List Char)) :
    ∀ buffer : List Char, '\n' ∉ buffer →
      readLinesAux chunks buffer = emitLines (buffer ++ chunks.flatten) := by
  induction chunks with
  | nil =>
      intro buffer hb
      simp only [readLinesAux, List.flatten_nil, List.append_nil, emitLines,
        splitNl_of_no_newline buffer hb]
      by_cases h : buffer = []
      · subst h; simp
      · simp [h]
  | cons chunk rest ih =>
      intro buffer hb
      have hlast : '\n' ∉ (splitNl (buffer ++ chunk)).getLastD [] :=
        splitNl_parts_no_newline (buffer ++ chunk) _
          (getLastD_mem_of_ne_nil _ _ (splitNl_ne_nil _))
      simp only [readLinesAux, ih _ hlast, List.flatten_cons]
      rw [show buffer ++ (chunk ++ rest.flatten) = (buffer ++ chunk) ++ rest.flatten by
        rw [List.append_assoc]]
      generalize hxs : buffer ++ chunk = xs at *
      generalize hys : rest.flatten = ys at *
      have hB : consHead ((splitNl xs).getLastD []) (splitNl ys) ≠ [] :=
        consHead_ne_nil _ _
      have hlx : splitNl ((splitNl xs).getLastD [] ++ ys) =
          consHead ((splitNl xs).getLastD []) (splitNl ys) := by
        rw [splitNl_append _ ys, splitNl_of_no_newline _ hlast]
        simp
      simp only [emitLines, splitNl_append xs ys, hlx]
      rw [List.dropLast_append_of_ne_nil _ hB, getLastD_append_of_ne_nil _ _ _ hB]
      simp [List.filter_append, List.append_assoc]

/-- C7 counterexample: for the stream `"a\n\nb\n"` the `\n`-terminated
fragments are `a`, `` (empty), `b`, but the reader yields only `a`, `b`:
the empty fragment between two consecutive newlines is skipped by the
`if (line)` guard. -/
theorem c7_counterexample :
    readLines [['a', '\n', '\n', 'b', '\n']] = [['a'], ['b']] ∧
    (splitNl ['a', '\n', '\n', 'b', '\n']).dropLast = [['a'], [], ['b']] ∧
    ([['a'], ['b']] : List (List Char)) ≠ [['a'], [], ['b']] := by
  refine ⟨by decide, by decide, by decide⟩

/-- C7 (amended): for every chunked byte stream, the reader yields, in
stream order and with the terminating newline removed, exactly the
non-empty `\n`-terminated fragments of the concatenated stream
(empty fragments between consecutive newlines are skipped), followed by
the trailing unterminated fragment when it is non-empty; the reader then
terminates. -/
theorem c7_line_reader_amended (chunks : List (List Char)) :
    readLines chunks =
      ((splitNl chunks.flatten).dropLast.filter (fun l => !l.isEmpty)) ++
        (if (splitNl chunks.flatten).getLastD [] = [] then []
         else [(splitNl chunks.flatten).getLastD []]) := by
  have h := readLinesAux_eq_emitLines chunks [] (by simp)
  simpa [readLines, emitLines] using h

/-! ## Healthcheck runner (`runHealthcheck` / `waitForHealthy`, healthcheck.ts) -/

/-- Result of one probe run, as in healthcheck.ts: `healthy` and whether
the probe was force-killed after the per-attempt timeout. -/
structure HCResult where
  healthy : Bool
  killed : Bool
  deriving DecidableEq

/-- `runHealthcheck`: the probe either exits within `timeoutMs` with some
exit code (`some code`) or the timeout elapses first (`none`).  On
timeout the probe is killed with signal 9 and the attempt is unhealthy;
otherwise the attempt is healthy exactly when the exit code is 0. -/
def runHealthcheck (outcome : Option Int) : HCResult :=
  match outcome with
  | none => { healthy := false, killed := true }
  | some code => { healthy := code = 0, killed := false }

/-- The retry loop of `waitForHealthy`, returning the result together
with the number of attempts run and the number of inter-attempt sleeps.
`attempt` is the 1-based attempt counter; the second argument is the
number of attempts remaining (`retries - attempt + 1`). -/
def wfhGo (outcomes : Nat → Option Int) (attempt : Nat) : Nat → Bool × Nat × Nat
  | 0 => (false, 0, 0)
  | remaining + 1 =>
      if (runHealthcheck (outcomes attempt)).healthy then (true, 1, 0)
      else if remaining = 0 then (false, 1, 0)
      else
        let r := wfhGo outcomes (attempt + 1) remaining
        (r.1, r.2.1 + 1, r.2.2 + 1)

/-- `waitForHealthy`: run the probe up to `retries` times, sleeping
`intervalMs` between consecutive failed attempts. -/
def waitForHealthy (outcomes : Nat → Option Int) (retries : Nat) : Bool × Nat × Nat :=
  wfhGo outcomes 1 retries

theorem wfhGo_spec (outcomes : Nat → Option Int) :
    ∀ (remaining attempt : Nat), 1 ≤ remaining →
      (((wfhGo outcomes attempt remaining).1 = true ↔
          ∃ i, attempt ≤ i ∧ i < attempt + remaining ∧
            (runHealthcheck (outcomes i)).healthy = true) ∧
        ((wfhGo outcomes attempt remaining).1 = true →
          ∃ i, attempt ≤ i ∧ i < attempt + remaining ∧
            (runHealthcheck (outcomes i)).healthy = true ∧
            (∀ j, attempt ≤ j → j < i → (runHealthcheck (outcomes j)).healthy = false) ∧
            (wfhGo outcomes attempt remaining).2.1 = i - attempt + 1 ∧
            (wfhGo outcomes attempt remaining).2.2 = i - attempt) ∧
        ((wfhGo outcomes attempt remaining).1 = false →
          (wfhGo outcomes attempt remaining).2.1 = remaining ∧
          (wfhGo outcomes attempt remaining).2.2 = remaining - 1)) := by
  intro remaining
  induction remaining with
  | zero => intro attempt h; omega
  | succ rem ih =>
      intro attempt _
      by_cases hh : (runHealthcheck (outcomes attempt)).healthy = true
      · constructor
        · simp only [wfhGo, hh, if_true]
          constructor
          · intro _; exact ⟨attempt, le_refl _, by omega, hh⟩
          · intro _; trivial
        constructor
        · intro _
          refine ⟨attempt, le_refl _, by omega, hh, ?_, ?_, ?_⟩
          · intro j h1 h2; omega
          · simp [wfhGo, hh]
          · simp [wfhGo, hh]
        · intro hfalse
          simp [wfhGo, hh] at hfalse
      · have hh' : (runHealthcheck (outcomes attempt)).healthy = false := by
          simpa using hh
        by_cases hrem : rem = 0
        · subst hrem
          constructor
          · simp only [wfhGo, hh', Bool.false_eq_true, if_false, if_pos rfl]
            constructor
            · intro h; exact absurd h (by simp)
            · rintro ⟨i, h1, h2, h3⟩
              have : i = attempt := by omega
              subst this
              rw [hh'] at h3
              exact absurd h3 (by simp)
          constructor
          · intro h
            simp only [wfhGo, hh', Bool.false_eq_true, if_false, if_pos rfl] at h
            exact absurd h (by simp)
          · intro _
            simp [wfhGo, hh']
        · have hrem1 : 1 ≤ rem := by omega
          obtain ⟨iha, ihb, ihc⟩ := ih (attempt + 1) hrem1
          have hstep : wfhGo outcomes attempt (rem + 1) =
              ((wfhGo outcomes (attempt + 1) rem).1,
               (wfhGo outcomes (attempt + 1) rem).2.1 + 1,
               (wfhGo outcomes (attempt + 1) rem).2.2 + 1) := by
            simp [wfhGo, hh', hrem]
          rw [hstep]
          constructor
          · simp only
            rw [iha]
            constructor
            · rintro ⟨i, h1, h2, h3⟩
              exact ⟨i, by omega, by omega, h3⟩
            · rintro ⟨i, h1, h2, h3⟩
              refine ⟨i, ?_, by omega, h3⟩
              rcases Nat.eq_or_lt_of_le h1 with heq | hlt
              · subst heq; rw [hh'] at h3; exact absurd h3 (by simp)
              · omega
          constructor
          · intro htrue
            obtain ⟨i, h1, h2, h3, h4, h5, h6⟩ := ihb htrue
            refine ⟨i, by omega, by omega, h3, ?_, ?_, ?_⟩
            · intro j hj1 hj2
              rcases Nat.eq_or_lt_of_le hj1 with heq | hlt
              · subst heq; exact hh'
              · exact h4 j (by omega) hj2
            · simp only [h5]; omega
            · simp only [h6]; omega
          · intro hfalse
            obtain ⟨h1, h2⟩ := ihc hfalse
            constructor
            · simp only [h1]
            · simp only [h2]; omega

/-- C8: with `retries ≥ 1`, `waitForHealthy` runs the probe at most
`retries` times, returns true immediately after the first healthy
attempt (sleeping `intervalMs` only between consecutive failed attempts,
never after the final one), returns false exactly when all `retries`
attempts fail, and a timed-out probe is force-killed and counts as a
failure. -/
theorem c8_wait_for_healthy (outcomes : Nat → Option Int) (retries : Nat)
    (h : 1 ≤ retries) :
    ((waitForHealthy outcomes retries).2.1 ≤ retries) ∧
    ((waitForHealthy outcomes retries).1 = true ↔
      ∃ i, 1 ≤ i ∧ i ≤ retries ∧ (runHealthcheck (outcomes i)).healthy = true) ∧
    ((waitForHealthy outcomes retries).1 = true →
      ∃ i, 1 ≤ i ∧ i ≤ retries ∧ (runHealthcheck (outcomes i)).healthy = true ∧
        (∀ j, 1 ≤ j → j < i → (runHealthcheck (outcomes j)).healthy = false) ∧
        (waitForHealthy outcomes retries).2.1 = i ∧
        (waitForHealthy outcomes retries).2.2 = i - 1) ∧
    ((waitForHealthy outcomes retries).1 = false →
      (waitForHealthy outcomes retries).2.1 = retries ∧
      (waitForHealthy outcomes retries).2.2 = retries - 1) ∧
    (runHealthcheck none = { healthy := false, killed := true }) := by
  obtain ⟨ha, hb, hc⟩ := wfhGo_spec outcomes retries 1 h
  refine ⟨?_, ?_, ?_, hc, rfl⟩
  · by_cases ht : (waitForHealthy outcomes retries).1 = true
    · obtain ⟨i, h1, h2, _, _, h5, _⟩ := hb ht
      rw [show (waitForHealthy outcomes retries).2.1 = (wfhGo outcomes 1 retries).2.1 from rfl, h5]
      omega
    · have hf : (waitForHealthy outcomes retries).1 = false := by
        simpa using ht
      obtain ⟨h1, _⟩ := hc hf
      rw [show (waitForHealthy outcomes retries).2.1 = (wfhGo outcomes 1 retries).2.1 from rfl, h1]
  · rw [show (waitForHealthy outcomes retries).1 = (wfhGo outcomes 1 retries).1 from rfl, ha]
    constructor
    · rintro ⟨i, h1, h2, h3⟩; exact ⟨i, h1, by omega, h3⟩
    · rintro ⟨i, h1, h2, h3⟩; exact ⟨i, h1, by omega, h3⟩
  · intro ht
    obtain ⟨i, h1, h2, h3, h4, h5, h6⟩ := hb ht
    refine ⟨i, h1, by omega, h3, h4, ?_, ?_⟩
    · rw [show (waitForHealthy outcomes retries).2.1 = (wfhGo outcomes 1 retries).2.1 from rfl, h5]
      omega
    · rw [show (waitForHealthy outcomes retries).2.2 = (wfhGo outcomes 1 retries).2.2 from rfl, h6]

/-- C8 witness: three attempts where the first times out, the second
exits non-zero, and the third exits 0; the loop returns true after the
third attempt with two sleeps. -/
theorem c8_wait_for_healthy_witness :
    (waitForHealthy (fun i => if i = 1 then none else if i = 2 then some 7 else some 0) 3).1
      = true ∧
    (waitForHealthy (fun i => if i = 1 then none else if i = 2 then some 7 else some 0) 3).2.1
      ≤ 3 := by
  have h := c8_wait_for_healthy
    (fun i => if i = 1 then none else if i = 2 then some 7 else some 0) 3 (by decide)
  refine ⟨?_, h.1⟩
  exact h.2.1.mpr ⟨3, by decide, by decide, by decide⟩

/-! ## Log ring buffers (`useLogs`: `handleLog` / `clearLogs`) -/

/-- The default per-buffer capacity, `DEFAULT_BUFFER_SIZE`. -/
def defaultBufferSize : Nat := 1000

/-- A captured log line (the timestamp is irrelevant to buffer
behaviour and omitted). -/
structure BufLine where
  service : String
  content : String
  deriving DecidableEq

/-- The hook state: per-service buffers (`serviceBuffers`, a missing
key reads as the empty buffer) and the global interleaved list
(`logs`). -/
structure LogsState where
  serviceBuffers : String → List BufLine
  logs : List BufLine

/-- Per-service part of `handleLog`: `serviceBuffer.push(line)` then
`shift()` when the capacity is exceeded. -/
def handleLogBuf (bufferSize : Nat) (buf : List BufLine) (line : BufLine) : List BufLine :=
  let b := buf ++ [line]
  if bufferSize < b.length then b.drop 1 else b

/-- Global part of `handleLog`: `[...prev, line]` then
`slice(-bufferSize)` when the capacity is exceeded. -/
def handleLogGlobal (bufferSize : Nat) (logs : List BufLine) (line : BufLine) : List BufLine :=
  let g := logs ++ [line]
  if bufferSize < g.length then g.drop (g.length - bufferSize) else g

/-- `handleLog`: the line enters its service buffer and the global
list, each trimmed to capacity. -/
def handleLog (bufferSize : Nat) (line : BufLine) (st : LogsState) : LogsState :=
  { serviceBuffers := fun s =>
      if s = line.service then handleLogBuf bufferSize (st.serviceBuffers line.service) line
      else st.serviceBuffers s,
    logs := handleLogGlobal bufferSize st.logs line }

/-- `clearLogs`: with a service name, delete that service buffer and
filter its lines out of the global list; with none, clear everything. -/
def clearLogs (st : LogsState) : Option String → LogsState
  | some s =>
      { serviceBuffers := fun x => if x = s then [] else st.serviceBuffers x,
        logs := st.logs.filter (fun l => l.service ≠ s) }
  | none => { serviceBuffers := fun _ => [], logs := [] }

/-- The operations an execution may interleave. -/
inductive LogOp
  | append (l : BufLine)
  | clearService (s : String)
  | clearAll

/-- Run a sequence of operations against the hook state. -/
def runLogOps (bufferSize : Nat) : List LogOp → LogsState → LogsState
  | [], st => st
  | op :: rest, st =>
      runLogOps bufferSize rest
        (match op with
         | .append l => handleLog bufferSize l st
         | .clearService s => clearLogs st (some s)
         | .clearAll => clearLogs st none)

/-- The empty initial state of the hook. -/
def emptyLogs : LogsState := { serviceBuffers := fun _ => [], logs := [] }

theorem handleLogBuf_length_le (bufferSize : Nat) (buf : List BufLine) (line : BufLine)
    (h : buf.length ≤ bufferSize) :
    (handleLogBuf bufferSize buf line).length ≤ bufferSize := by
  simp only [handleLogBuf]
  split
  · simp only [List.length_drop, List.length_append, List.length_cons, List.length_nil]
    omega
  · next hge =>
      simp only [not_lt] at hge
      exact hge

theorem handleLogGlobal_length_le (bufferSize : Nat) (logs : List BufLine) (line : BufLine) :
    (handleLogGlobal bufferSize logs line).length ≤ bufferSize ∨
      (handleLogGlobal bufferSize logs line).length = logs.length + 1 := by
  simp only [handleLogGlobal]
  split
  · left
    simp only [List.length_drop]
    omega
  · right
    simp

theorem handleLogBuf_mem (bufferSize : Nat) (buf : List BufLine) (line : BufLine)
    (hcap : 1 ≤ bufferSize) : line ∈ handleLogBuf bufferSize buf line := by
  simp only [handleLogBuf]
  split
  · next hlt =>
      rcases buf with _ | ⟨a, rest⟩
      · simp at hlt
        omega
      · rw [List.cons_append, List.drop_one, List.tail_cons]
        simp
  · simp

theorem handleLogBuf_suffix (bufferSize : Nat) (buf : List BufLine) (line : BufLine) :
    handleLogBuf bufferSize buf line <:+ buf ++ [line] := by
  simp only [handleLogBuf]
  split
  · exact List.drop_suffix _ _
  · exact List.suffix_refl _

theorem handleLogGlobal_mem (bufferSize : Nat) (logs : List BufLine) (line : BufLine)
    (hcap : 1 ≤ bufferSize) : line ∈ handleLogGlobal bufferSize logs line := by
  simp only [handleLogGlobal]
  split
  · next hlt =>
      rw [List.drop_append_of_le_length (by simp; omega)]
      simp
  · simp

theorem handleLogGlobal_suffix (bufferSize : Nat) (logs : List BufLine) (line : BufLine) :
    handleLogGlobal bufferSize logs line <:+ logs ++ [line] := by
  simp only [handleLogGlobal]
  split
  · exact List.drop_suffix _ _
  · exact List.suffix_refl _

/-- The capacity bound holds after any sequence of operations. -/
theorem runLogOps_bound (bufferSize : Nat) (ops : List LogOp) :
    ∀ st : LogsState,
      ((∀ s, (st.serviceBuffers s).length ≤ bufferSize) ∧ st.logs.length ≤ bufferSize) →
      (∀ s, ((runLogOps bufferSize ops st).serviceBuffers s).length ≤ bufferSize) ∧
        (runLogOps bufferSize ops st).logs.length ≤ bufferSize := by
  induction ops with
  | nil => intro st h; exact h
  | cons op rest ih =>
      intro st h
      obtain ⟨hbuf, hlogs⟩ := h
      refine ih _ ?_
      cases op with
      | append l =>
          constructor
          · intro s
            simp only [handleLog]
            by_cases hs : s = l.service
            · rw [if_pos hs]
              exact handleLogBuf_length_le bufferSize _ l (hbuf l.service)
            · rw [if_neg hs]
              exact hbuf s
          · show (handleLogGlobal bufferSize st.logs l).length ≤ bufferSize
            simp only [handleLogGlobal]
            split
            · simp only [List.length_drop]
              omega
            · next hge =>
                simp only [not_lt] at hge
                exact hge
      | clearService s =>
          constructor
          · intro x
            simp only [clearLogs]
            by_cases hx : x = s
            · simp [if_pos hx]
            · rw [if_neg hx]
              exact hbuf x
          · exact le_trans (List.length_filter_le _ _) hlogs
      | clearAll =>
          exact ⟨fun s => by simp [clearLogs], by simp [clearLogs]⟩

/-- C5: after any sequence of appends and clears starting from the empty
state, every per-service buffer and the global buffer hold at most
`bufferSize` lines (1000 by default); an appended line enters both
buffers; overflow evicts from the front only, so the surviving content
is a suffix of the old content plus the new line; `clear(service)`
empties exactly that service buffer and removes exactly its lines from
the global buffer, leaving other services untouched; `clear()` with no
argument empties everything. -/
theorem c5_log_buffers (bufferSize : Nat) (hcap : 1 ≤ bufferSize) (ops : List LogOp)
    (line : BufLine) (st : LogsState) (s x : String) :
    ((∀ y, ((runLogOps bufferSize ops emptyLogs).serviceBuffers y).length ≤ bufferSize) ∧
      (runLogOps bufferSize ops emptyLogs).logs.length ≤ bufferSize) ∧
    (line ∈ (handleLog bufferSize line st).serviceBuffers line.service ∧
      line ∈ (handleLog bufferSize line st).logs) ∧
    ((handleLog bufferSize line st).serviceBuffers line.service
        <:+ st.serviceBuffers line.service ++ [line] ∧
      (handleLog bufferSize line st).logs <:+ st.logs ++ [line]) ∧
    ((clearLogs st (some s)).serviceBuffers s = [] ∧
      (x ≠ s → (clearLogs st (some s)).serviceBuffers x = st.serviceBuffers x) ∧
      (clearLogs st (some s)).logs = st.logs.filter (fun l => l.service ≠ s)) ∧
    ((clearLogs st none).serviceBuffers x = [] ∧ (clearLogs st none).logs = []) ∧
    defaultBufferSize = 1000 := by
  refine ⟨?_, ⟨?_, ?_⟩, ⟨?_, ?_⟩, ⟨?_, ?_, ?_⟩, ⟨?_, ?_⟩, rfl⟩
  · exact runLogOps_bound bufferSize ops emptyLogs
      ⟨fun _ => by simp [emptyLogs], by simp [emptyLogs]⟩
  · show line ∈ (if line.service = line.service then _ else _)
    rw [if_pos rfl]
    exact handleLogBuf_mem bufferSize _ line hcap
  · exact handleLogGlobal_mem bufferSize st.logs line hcap
  · show (if line.service = line.service then _ else _) <:+ _
    rw [if_pos rfl]
    exact handleLogBuf_suffix bufferSize _ line
  · exact handleLogGlobal_suffix bufferSize st.logs line
  · simp [clearLogs]
  · intro hx
    simp [clearLogs, hx]
  · rfl
  · simp [clearLogs]
  · rfl

/-- C5 witness: the theorem applied at capacity 1 with a concrete line. -/
theorem c5_log_buffers_witness :
    (⟨"a", "x"⟩ : BufLine) ∈ (handleLog 1 ⟨"a", "x"⟩ emptyLogs).serviceBuffers "a" ∧
    (clearLogs emptyLogs none).logs = [] :=
  ⟨(c5_log_buffers 1 (by decide) [] ⟨"a", "x"⟩ emptyLogs "a" "b").2.1.1,
   (c5_log_buffers 1 (by decide) [] ⟨"a", "x"⟩ emptyLogs "a" "b").2.2.2.2.1.2⟩

/-! ## Supervisor state machine (`handleExit` / `stop`, manager.ts) -/

/-- Service lifecycle status, process/types.ts. -/
inductive Status
  | stopped | starting | running | healthy | stopping | crashed | failed
  deriving DecidableEq

/-- Restart policy of a service. -/
inductive RestartPolicy
  | no | onFailure | always
  deriving DecidableEq

/-- Runtime state of a service (fields relevant to exit and stop
handling; dates are reduced to presence flags). -/
structure ServiceState where
  status : Status
  pid : Option Nat
  exitCode : Option Int
  restartCount : Nat
  hasStoppedAt : Bool
  deriving DecidableEq

/-- `isRunning` from process/types.ts. -/
def isRunning (st : ServiceState) : Bool :=
  st.status = .running ∨ st.status = .healthy ∨ st.status = .starting

/-- `canStop` from process/types.ts. -/
def canStop (st : ServiceState) : Bool :=
  st.status = .running ∨ st.status = .healthy ∨ st.status = .starting

/-- Effect of `handleExit`: the new service state plus the side actions
taken (healthcheck poller stopped, resource tracking removed, restart
timer scheduled). -/
structure ExitEffect where
  state : ServiceState
  pollerStopped : Bool
  untracked : Bool
  restartScheduled : Bool
  deriving DecidableEq

/-- `handleExit(name, exitCode)` from manager.ts: the status becomes
`stopped` on exit code 0 and `crashed` otherwise — regardless of the
previous status; `exitCode` and `stoppedAt` are recorded and `pid`
cleared; a restart is scheduled (with `restartCount` incremented) only
when the new status is `crashed` and the policy demands it. -/
def handleExit (policy : RestartPolicy) (st : ServiceState) (exitCode : Int) : ExitEffect :=
  let status : Status := if exitCode = 0 then .stopped else .crashed
  let st1 : ServiceState :=
    { st with status := status, exitCode := some exitCode, hasStoppedAt := true, pid := none }
  if status = .crashed ∧
      (policy = .always ∨ (policy = .onFailure ∧ exitCode ≠ 0)) then
    { state := { st1 with restartCount := st.restartCount + 1 },
      pollerStopped := true, untracked := true, restartScheduled := true }
  else
    { state := st1, pollerStopped := true, untracked := true, restartScheduled := false }

/-- The restart back-off delay passed to `setTimeout`, in milliseconds. -/
def restartDelayMs : Nat := 1000

/-- The guard inside the restart timer callback: the restart only fires
if the service is still `crashed` when the timer fires. -/
def restartFires (statusAtTimer : Status) : Bool :=
  statusAtTimer = .crashed

/-- The timer callback calls `start(name, { skipDeps: true })`, whose
first transition sets the status to `starting`; otherwise the state is
untouched. -/
def restartTimer (st : ServiceState) : ServiceState :=
  if restartFires st.status then { st with status := .starting } else st

/-- Projections of `handleExit` that do not depend on the restart
branch: the poller is stopped, resources untracked, `exitCode` and
`stoppedAt` recorded, `pid` cleared, and the status determined by the
exit code alone. -/
theorem handleExit_common (policy : RestartPolicy) (st : ServiceState) (code : Int) :
    (handleExit policy st code).untracked = true ∧
    (handleExit policy st code).pollerStopped = true ∧
    (handleExit policy st code).state.exitCode = some code ∧
    (handleExit policy st code).state.hasStoppedAt = true ∧
    (handleExit policy st code).state.pid = none ∧
    (code = 0 → (handleExit policy st code).state.status = .stopped) ∧
    (code ≠ 0 → (handleExit policy st code).state.status = .crashed) := by
  by_cases hc : code = 0
  · simp [handleExit, hc]
  · simp [handleExit, hc, apply_ite]

/-- C1: with policy `on-failure` and a non-zero exit code the supervisor
schedules a restart (incrementing `restartCount`) whose timer performs
`crashed → starting` only if the service is still `crashed`, after a
fixed 1 s delay; with policy `no` nothing is scheduled; but with policy
`always` and a clean exit (code 0) the code schedules NO restart — the
restart block is guarded by `status === "crashed"`, which requires a
non-zero exit code — contradicting the claim (and the repository's own
documentation, `always: Always restart`). -/
theorem c1_restart_policy :
    (∀ (st : ServiceState) (code : Int), code ≠ 0 →
      (handleExit .onFailure st code).restartScheduled = true ∧
      (handleExit .onFailure st code).state.status = .crashed ∧
      (handleExit .onFailure st code).state.restartCount = st.restartCount + 1) ∧
    (∀ (st : ServiceState) (code : Int),
      (handleExit .no st code).restartScheduled = false) ∧
    (∀ st : ServiceState, st.status = .crashed → (restartTimer st).status = .starting) ∧
    (∀ st : ServiceState, st.status ≠ .crashed → restartTimer st = st) ∧
    restartDelayMs = 1000 ∧
    ((handleExit .always
        { status := .running, pid := some 42, exitCode := none,
          restartCount := 0, hasStoppedAt := false } 0).restartScheduled = false ∧
      (handleExit .always
        { status := .running, pid := some 42, exitCode := none,
          restartCount := 0, hasStoppedAt := false } 0).state.status = .stopped) := by
  refine ⟨?_, ?_, ?_, ?_, rfl, by decide⟩
  · intro st code hcode
    simp [handleExit, hcode]
  · intro st code
    simp [handleExit, apply_ite]
  · intro st h
    simp [restartTimer, restartFires, h]
  · intro st h
    simp [restartTimer, restartFires, h]

/-- C1 witness: a non-zero exit under `on-failure` schedules a restart,
and the timer fires on a still-`crashed` service. -/
theorem c1_restart_policy_witness :
    (handleExit .onFailure
      { status := .running, pid := some 7, exitCode := none,
        restartCount := 2, hasStoppedAt := false } 1).restartScheduled = true ∧
    (restartTimer
      { status := .crashed, pid := none, exitCode := some 1,
        restartCount := 3, hasStoppedAt := true }).status = .starting := by
  constructor
  · exact (c1_restart_policy.1
      { status := .running, pid := some 7, exitCode := none,
        restartCount := 2, hasStoppedAt := false } 1 (by decide)).1
  · exact c1_restart_policy.2.2.1
      { status := .crashed, pid := none, exitCode := some 1,
        restartCount := 3, hasStoppedAt := true } (by decide)

/-- JavaScript string `a || b` on an optional string: the default is
taken when the option is absent or the empty string (falsy), as in
manager.ts:373 `options.signal || serviceConfig?.stopSignal ||
"SIGTERM"`. -/
def orFalsy (a : Option String) (d : String) : String :=
  match a with
  | some s => if s = "" then d else s
  | none => d

/-- The numeric signal `stopProcess` actually delivers for the requested
signal name, spawner.ts:150:
`proc.kill(signal === "SIGTERM" ? 15 : signal === "SIGKILL" ? 9 : 15)` —
9 for `"SIGKILL"` and 15 (SIGTERM) for every other name, so a configured
signal such as `SIGINT` is delivered as SIGTERM. -/
def killSignalNum (signal : String) : Nat :=
  if signal = "SIGTERM" then 15 else if signal = "SIGKILL" then 9 else 15

/-- Effect of a `stop(name)` call, as observed once the child has
exited.  `signalRequested` is the signal name resolved by manager.ts;
`signalDelivered` is the numeric signal `stopProcess` passes to
`proc.kill`.  The child behaviour is an input: `exitsWithinTimeout` is
`some code` when it exits with `code` before the stop timeout elapses,
and `none` when the timeout fires first, in which case the child is
SIGKILLed and eventually exits with `lateExitCode`. -/
structure StopEffect where
  entered : Bool
  pollerStopped : Bool
  signalRequested : Option String
  signalDelivered : Option Nat
  timeoutUsed : Nat
  hardKilled : Bool
  untracked : Bool
  finalState : ServiceState
  deriving DecidableEq

/-- No-op effect: the stop call returned early. -/
def stopNoop (st : ServiceState) : StopEffect :=
  { entered := false, pollerStopped := false, signalRequested := none,
    signalDelivered := none, timeoutUsed := 0,
    hardKilled := false, untracked := false, finalState := st }

/-- `stop(name, options)` from manager.ts composed with `stopProcess`
from spawner.ts and the `handleExit` exit listener: a no-op unless
`canStop`; otherwise sets `stopping`, stops the poller, resolves the
signal name as `options.signal || config.stopSignal || "SIGTERM"` and
passes it to `stopProcess`, which delivers `killSignalNum` of that name
(9 for SIGKILL, 15 for everything else), waits up to
`options.timeout ?? 10000` ms, escalates to SIGKILL on timeout, and the
child's eventual exit is processed by `handleExit` (which does not
special-case a stop in progress). -/
def stop (policy : RestartPolicy) (cfgSignal : Option String)
    (optSignal : Option String) (optTimeout : Option Nat)
    (st : ServiceState) (hasProcess : Bool)
    (exitsWithinTimeout : Option Int) (lateExitCode : Int) : StopEffect :=
  if ¬ canStop st then stopNoop st
  else
    let st1 : ServiceState := { st with status := .stopping }
    if ¬ hasProcess then
      { entered := true, pollerStopped := false, signalRequested := none,
        signalDelivered := none, timeoutUsed := 0,
        hardKilled := false, untracked := false,
        finalState := { st1 with status := .stopped } }
    else
      let signal := orFalsy optSignal (orFalsy cfgSignal "SIGTERM")
      let timeout := optTimeout.getD 10000
      let eff := handleExit policy st1 (exitsWithinTimeout.getD lateExitCode)
      { entered := true, pollerStopped := true, signalRequested := some signal,
        signalDelivered := some (killSignalNum signal),
        timeoutUsed := timeout, hardKilled := exitsWithinTimeout.isNone,
        untracked := eff.untracked, finalState := eff.state }

theorem orFalsy_of_ne_empty (a : Option String) (d : String) (h : a ≠ some "") :
    orFalsy a d = a.getD d := by
  cases a with
  | none => rfl
  | some s =>
      have hs : s ≠ "" := fun he => h (by rw [he])
      simp [orFalsy, hs]

theorem stop_eq_of_canStop (policy : RestartPolicy) (cfgSignal optSignal : Option String)
    (optTimeout : Option Nat) (st : ServiceState)
    (exitsWithinTimeout : Option Int) (lateExitCode : Int)
    (h : canStop st = true) :
    stop policy cfgSignal optSignal optTimeout st true exitsWithinTimeout lateExitCode =
      { entered := true, pollerStopped := true,
        signalRequested := some (orFalsy optSignal (orFalsy cfgSignal "SIGTERM")),
        signalDelivered := some (killSignalNum (orFalsy optSignal (orFalsy cfgSignal "SIGTERM"))),
        timeoutUsed := optTimeout.getD 10000,
        hardKilled := exitsWithinTimeout.isNone,
        untracked := (handleExit policy { st with status := .stopping }
          (exitsWithinTimeout.getD lateExitCode)).untracked,
        finalState := (handleExit policy { st with status := .stopping }
          (exitsWithinTimeout.getD lateExitCode)).state } := by
  simp only [stop]
  rw [if_neg (by simp [h]), if_neg (by simp)]

/-- C2 counterexample: (i) a `running` service whose child, upon
receiving the stop signal, exits with code 1 within the timeout ends in
status `crashed`, not `stopped`: `handleExit` maps any non-zero exit
code to `crashed` without checking that a stop was in progress; and
(ii) the configured stop signal is not what is sent: with `stopSignal:
"SIGINT"` the child receives numeric signal 15 (SIGTERM), because
`stopProcess` collapses every signal name other than `"SIGKILL"` to 15. -/
theorem c2_counterexample :
    ((stop .no (some "SIGTERM") none none
      { status := .running, pid := some 9, exitCode := none,
        restartCount := 0, hasStoppedAt := false } true (some 1) 1).finalState.status
      = .crashed ∧
    (Status.crashed ≠ Status.stopped)) ∧
    ((stop .no (some "SIGINT") none none
      { status := .running, pid := some 9, exitCode := none,
        restartCount := 0, hasStoppedAt := false } true (some 0) 0).signalRequested
      = some "SIGINT" ∧
    (stop .no (some "SIGINT") none none
      { status := .running, pid := some 9, exitCode := none,
        restartCount := 0, hasStoppedAt := false } true (some 0) 0).signalDelivered
      = some 15 ∧
    killSignalNum "SIGTERM" = 15) := by
  refine ⟨⟨rfl, by decide⟩, rfl, rfl, rfl⟩

/-- C2 (amended): for a service in `running`, `healthy` or `starting`,
`stop(name)` sets `stopping`, cancels the healthcheck poller, resolves
the stop signal name as configured (defaulting to SIGTERM) but delivers
numeric signal 9 when that name is `"SIGKILL"` and 15 (SIGTERM) for
every other name — a configured signal such as SIGINT is delivered as
SIGTERM — uses a 10 s default timeout and escalates to the hard-kill
signal when the child has not exited within it; once the child exits,
`exitCode` and `stoppedAt` are recorded, `pid` is cleared and resource
tracking removed, and the status becomes `stopped` when the exit code
is 0 but `crashed` when it is non-zero (the claim's "never crashed"
does not hold); in any other status `stop` is a no-op. -/
theorem c2_stop_amended (policy : RestartPolicy) (cfgSignal : Option String)
    (st : ServiceState) (exitsWithinTimeout : Option Int) (lateExitCode : Int)
    (hsig : cfgSignal ≠ some "") :
    (∀ s, s ≠ "SIGKILL" → killSignalNum s = 15) ∧
    killSignalNum "SIGKILL" = 9 ∧
    (canStop st = false →
      stop policy cfgSignal none none st true exitsWithinTimeout lateExitCode
        = stopNoop st) ∧
    (canStop st = true →
      (stop policy cfgSignal none none st true exitsWithinTimeout lateExitCode).entered
          = true ∧
      (stop policy cfgSignal none none st true exitsWithinTimeout
          lateExitCode).pollerStopped = true ∧
      (stop policy cfgSignal none none st true exitsWithinTimeout
          lateExitCode).signalRequested = some (cfgSignal.getD "SIGTERM") ∧
      (stop policy cfgSignal none none st true exitsWithinTimeout
          lateExitCode).signalDelivered
        = some (killSignalNum (cfgSignal.getD "SIGTERM")) ∧
      (stop policy cfgSignal none none st true exitsWithinTimeout
          lateExitCode).timeoutUsed = 10000 ∧
      (stop policy cfgSignal none none st true exitsWithinTimeout
          lateExitCode).hardKilled = exitsWithinTimeout.isNone ∧
      (stop policy cfgSignal none none st true exitsWithinTimeout
          lateExitCode).untracked = true ∧
      (stop policy cfgSignal none none st true exitsWithinTimeout
          lateExitCode).finalState.exitCode
        = some (exitsWithinTimeout.getD lateExitCode) ∧
      (stop policy cfgSignal none none st true exitsWithinTimeout
          lateExitCode).finalState.hasStoppedAt = true ∧
      (stop policy cfgSignal none none st true exitsWithinTimeout
          lateExitCode).finalState.pid = none ∧
      (exitsWithinTimeout.getD lateExitCode = 0 →
        (stop policy cfgSignal none none st true exitsWithinTimeout
          lateExitCode).finalState.status = .stopped) ∧
      (exitsWithinTimeout.getD lateExitCode ≠ 0 →
        (stop policy cfgSignal none none st true exitsWithinTimeout
          lateExitCode).finalState.status = .crashed)) := by
  refine ⟨?_, ?_, ?_, ?_⟩
  · intro s hs
    by_cases ht : s = "SIGTERM" <;> simp [killSignalNum, ht, hs]
  · decide
  · intro hno
    simp only [stop]
    rw [if_pos (by simp [hno])]
  · intro hyes
    rw [stop_eq_of_canStop policy cfgSignal none none st exitsWithinTimeout lateExitCode hyes]
    obtain ⟨h1, h2, h3, h4, h5, h6, h7⟩ := handleExit_common policy
      { st with status := .stopping } (exitsWithinTimeout.getD lateExitCode)
    have hsg : orFalsy cfgSignal "SIGTERM" = cfgSignal.getD "SIGTERM" :=
      orFalsy_of_ne_empty cfgSignal "SIGTERM" hsig
    exact ⟨rfl, rfl, congrArg some hsg,
      congrArg (fun s => some (killSignalNum s)) hsg,
      rfl, rfl, h1, h3, h4, h5, h6, h7⟩

/-- C2 witness: the amended theorem applied to a `running` service whose
child exits 0 within the timeout (status `stopped`, SIGINT collapsed to
numeric 15), and to a `stopped` service (no-op). -/
theorem c2_stop_amended_witness :
    killSignalNum "SIGINT" = 15 ∧
    (stop .no (some "SIGINT") none none
      { status := .running, pid := some 9, exitCode := none,
        restartCount := 0, hasStoppedAt := false } true (some 0) 0).signalDelivered
      = some (killSignalNum "SIGINT") ∧
    (stop .no (some "SIGTERM") none none
      { status := .running, pid := some 9, exitCode := none,
        restartCount := 0, hasStoppedAt := false } true (some 0) 0).finalState.status
      = .stopped ∧
    stop .no none none none
      { status := .stopped, pid := none, exitCode := some 0,
        restartCount := 0, hasStoppedAt := true } true (some 0) 0
      = stopNoop { status := .stopped, pid := none, exitCode := some 0,
                   restartCount := 0, hasStoppedAt := true } := by
  refine ⟨?_, ?_, ?_, ?_⟩
  · exact (c2_stop_amended .no (some "SIGINT")
      { status := .running, pid := some 9, exitCode := none,
        restartCount := 0, hasStoppedAt := false } (some 0) 0 (by decide)).1
      "SIGINT" (by decide)
  · exact ((c2_stop_amended .no (some "SIGINT")
      { status := .running, pid := some 9, exitCode := none,
        restartCount := 0, hasStoppedAt := false } (some 0) 0 (by decide)).2.2.2
      (by decide)).2.2.2.1
  · exact ((c2_stop_amended .no (some "SIGTERM")
      { status := .running, pid := some 9, exitCode := none,
        restartCount := 0, hasStoppedAt := false } (some 0) 0 (by decide)).2.2.2
      (by decide)).2.2.2.2.2.2.2.2.2.2.1 (by decide)
  · exact (c2_stop_amended .no none
      { status := .stopped, pid := none, exitCode := some 0,
        restartCount := 0, hasStoppedAt := true } (some 0) 0 (by decide)).2.2.1
      (by decide)

/-! ## Association-list lemmas (JavaScript `Map`s / records as
insertion-ordered key-value lists) -/

theorem lookup_isSome_iff {β : Type} (l : List (String × β)) (k : String) :
    (l.lookup k).isSome ↔ k ∈ l.map Prod.fst := by
  induction l with
  | nil => simp [List.lookup]
  | cons p rest ih =>
      obtain ⟨a, b⟩ := p
      by_cases hk : k = a
      · subst hk
        simp [List.lookup]
      · have hne : ¬ (k == a) = true := by simpa using hk
        simp only [List.lookup, hne, Bool.false_eq_true, if_false]
        simp [ih, hk]

theorem lookup_eq_none_iff {β : Type} (l : List (String × β)) (k : String) :
    l.lookup k = none ↔ k ∉ l.map Prod.fst := by
  rw [← lookup_isSome_iff]
  cases h : l.lookup k <;> simp [h]

theorem lookup_of_mem_nodup {β : Type} (l : List (String × β)) (k : String) (v : β)
    (hmem : (k, v) ∈ l) (hnd : (l.map Prod.fst).Nodup) : l.lookup k = some v := by
  induction l with
  | nil => simp at hmem
  | cons p rest ih =>
      obtain ⟨a, b⟩ := p
      simp only [List.map_cons, List.nodup_cons] at hnd
      rcases List.mem_cons.mp hmem with h | h
      · rw [show k = a from congrArg Prod.fst h, show v = b from congrArg Prod.snd h]
        simp [List.lookup]
      · have hk : ¬ k = a := by
          intro heq
          exact hnd.1 (heq ▸ List.mem_map.mpr ⟨(k, v), h, rfl⟩)
        have hne : ¬ (k == a) = true := by simpa using hk
        simp only [List.lookup, hne, Bool.false_eq_true, if_false]
        exact ih h hnd.2

theorem mem_of_lookup_eq_some {β : Type} (l : List (String × β)) (k : String) (v : β)
    (h : l.lookup k = some v) : (k, v) ∈ l := by
  induction l with
  | nil => simp [List.lookup] at h
  | cons p rest ih =>
      obtain ⟨a, b⟩ := p
      by_cases hk : k = a
      · subst hk
        simp only [List.lookup, beq_self_eq_true, if_true, Option.some.injEq] at h
        subst h
        exact List.mem_cons_self _ _
      · have hne : ¬ (k == a) = true := by simpa using hk
        simp only [List.lookup, hne, Bool.false_eq_true, if_false] at h
        exact List.mem_cons_of_mem _ (ih h)

/-! ## Config reload diff (`reloadConfig` / `serviceConfigChanged`, manager.ts) -/

/-- Wait-condition on a dependency edge. -/
inductive DepCondition
  | started | healthy
  deriving DecidableEq

/-- Normalized healthcheck spec, config/types.ts. -/
structure NormalizedHealthcheck where
  cmd : String
  intervalMs : Nat
  timeoutMs : Nat
  retries : Nat
  deriving DecidableEq

/-- Normalized service config, config/types.ts.  `env` is a record
(unique keys) and `dependsOn` a `Map` (unique keys), both modelled as
insertion-ordered association lists. -/
structure NormalizedService where
  name : String
  cmd : String
  cwd : String
  env : List (String × String)
  dependsOn : List (String × DepCondition)
  healthcheck : Option NormalizedHealthcheck
  restart : RestartPolicy
  color : Option String
  stopSignal : String
  group : Option String
  deriving DecidableEq

/-- The env comparison inside `serviceConfigChanged`: both key sets are
sorted (`Object.keys(...).sort()`), compared pairwise, and the value at
each key compared. -/
def envChanged (o n : List (String × String)) : Bool :=
  let ok := (o.map Prod.fst).mergeSort (· ≤ ·)
  let nk := (n.map Prod.fst).mergeSort (· ≤ ·)
  (ok.length != nk.length) ||
    (ok.zip nk).any (fun p => (p.1 != p.2) || (o.lookup p.1 != n.lookup p.2))

/-- The dependency comparison inside `serviceConfigChanged`: sizes must
match and every old edge must be present with the same condition. -/
def depsChanged (o n : List (String × DepCondition)) : Bool :=
  (o.length != n.length) || o.any (fun d => n.lookup d.1 != some d.2)

/-- `serviceConfigChanged` from manager.ts: compares only `cmd`, `cwd`,
`restart`, `group`, `env` (key by key) and `dependsOn` — not
`healthcheck`, `color` or `stopSignal`. -/
def serviceConfigChanged (o n : NormalizedService) : Bool :=
  (o.cmd != n.cmd) || (o.cwd != n.cwd) || (o.restart != n.restart) ||
    (o.group != n.group) || envChanged o.env n.env ||
    depsChanged o.dependsOn n.dependsOn

/-- The three change sets computed by `reloadConfig`: `added` and
`modified` scanning the new services in order, `removed` scanning the
old ones. -/
def reloadDiff (old new : List (String × NormalizedService)) :
    List String × List String × List String :=
  let added := (new.filter (fun p => (old.lookup p.1).isNone)).map Prod.fst
  let removed := (old.filter (fun p => (new.lookup p.1).isNone)).map Prod.fst
  let modified := new.filterMap (fun p =>
    match old.lookup p.1 with
    | some os => if serviceConfigChanged os p.2 then some p.1 else none
    | none => none)
  (added, removed, modified)

/-- The services `reloadConfig` stops: running removed ones, then
running modified ones. -/
def reloadStops (old new : List (String × NormalizedService))
    (running : String → Bool) : List String :=
  (reloadDiff old new).2.1.filter running ++ (reloadDiff old new).2.2.filter running

/-- The services `reloadConfig` starts again: modified ones whose
status is `stopped` after the stop phase. -/
def reloadStarts (old new : List (String × NormalizedService))
    (statusAfterStops : String → Status) : List String :=
  (reloadDiff old new).2.2.filter (fun nm => statusAfterStops nm == Status.stopped)

theorem eq_of_zip_fst_eq_snd {α : Type} :
    ∀ (l1 l2 : List α), l1.length = l2.length →
      (∀ p ∈ l1.zip l2, p.1 = p.2) → l1 = l2 := by
  intro l1
  induction l1 with
  | nil =>
      intro l2 hlen _
      cases l2 with
      | nil => rfl
      | cons b t => simp at hlen
  | cons a t ih =>
      intro l2 hlen hp
      cases l2 with
      | nil => simp at hlen
      | cons b t2 =>
          have h1 : a = b := hp (a, b) (by simp [List.zip_cons_cons])
          have h2 : t = t2 := by
            refine ih t2 (by simpa using hlen) ?_
            intro p hmem
            exact hp p (by simp [List.zip_cons_cons, hmem])
          rw [h1, h2]

theorem mem_zip_self {α : Type} :
    ∀ (l : List α) (p : α × α), p ∈ l.zip l → p.1 = p.2 := by
  intro l
  induction l with
  | nil => intro p hp; simp at hp
  | cons a t ih =>
      intro p hp
      rw [List.zip_cons_cons] at hp
      rcases List.mem_cons.mp hp with h | h
      · rw [h]
      · exact ih p h

theorem self_mem_zip_self {α : Type} :
    ∀ (l : List α) (x : α), x ∈ l → (x, x) ∈ l.zip l := by
  intro l
  induction l with
  | nil => intro x hx; simp at hx
  | cons a t ih =>
      intro x hx
      rw [List.zip_cons_cons]
      rcases List.mem_cons.mp hx with h | h
      · subst h; exact List.mem_cons_self _ _
      · exact List.mem_cons_of_mem _ (ih x h)

/-- The sorted key list of an association list with distinct keys,
together with the lookups, determines the list up to lookup
equivalence: `envChanged` is false exactly on lookup-equivalent
records. -/
theorem envChanged_eq_false_iff (o n : List (String × String))
    (ho : (o.map Prod.fst).Nodup) (hn : (n.map Prod.fst).Nodup) :
    envChanged o n = false ↔ ∀ k, o.lookup k = n.lookup k := by
  have hperm_o := List.mergeSort_perm (o.map Prod.fst) (fun a b => a ≤ b)
  have hperm_n := List.mergeSort_perm (n.map Prod.fst) (fun a b => a ≤ b)
  constructor
  · intro h
    simp only [envChanged, Bool.or_eq_false_iff, bne_eq_false_iff_eq,
      List.any_eq_false] at h
    obtain ⟨hlen, hall⟩ := h
    have hkeys : (o.map Prod.fst).mergeSort (· ≤ ·) = (n.map Prod.fst).mergeSort (· ≤ ·) := by
      refine eq_of_zip_fst_eq_snd _ _ hlen ?_
      intro p hp
      have h2 := hall p hp
      simp only [Bool.or_eq_true, bne_iff_ne, not_or, not_not] at h2
      exact h2.1
    intro k
    by_cases hk : k ∈ o.map Prod.fst
    · have hk1 : k ∈ (o.map Prod.fst).mergeSort (· ≤ ·) := hperm_o.mem_iff.mpr hk
      have hz : (k, k) ∈ ((o.map Prod.fst).mergeSort (· ≤ ·)).zip
          ((n.map Prod.fst).mergeSort (· ≤ ·)) := by
        rw [← hkeys]
        exact self_mem_zip_self _ k hk1
      have h2 := hall (k, k) hz
      simp only [Bool.or_eq_true, bne_iff_ne, not_or, not_not] at h2
      exact h2.2
    · have hk2 : k ∉ n.map Prod.fst := by
        intro hmem
        apply hk
        have : k ∈ (n.map Prod.fst).mergeSort (· ≤ ·) := hperm_n.mem_iff.mpr hmem
        rw [← hkeys] at this
        exact hperm_o.mem_iff.mp this
      rw [(lookup_eq_none_iff o k).mpr hk, (lookup_eq_none_iff n k).mpr hk2]
  · intro h
    have hmemiff : ∀ k, k ∈ o.map Prod.fst ↔ k ∈ n.map Prod.fst := by
      intro k
      rw [← lookup_isSome_iff, ← lookup_isSome_iff, h k]
    have hnd_o : ((o.map Prod.fst).mergeSort (· ≤ ·)).Nodup := hperm_o.nodup_iff.mpr ho
    have hnd_n : ((n.map Prod.fst).mergeSort (· ≤ ·)).Nodup := hperm_n.nodup_iff.mpr hn
    have hpm : ((o.map Prod.fst).mergeSort (· ≤ ·)).Perm
        ((n.map Prod.fst).mergeSort (· ≤ ·)) := by
      refine List.perm_of_nodup_nodup_toFinset_eq hnd_o hnd_n ?_
      ext k
      simp only [List.mem_toFinset]
      rw [hperm_o.mem_iff, hperm_n.mem_iff]
      exact hmemiff k
    have hkeys : (o.map Prod.fst).mergeSort (· ≤ ·) = (n.map Prod.fst).mergeSort (· ≤ ·) :=
      List.eq_of_perm_of_sorted hpm (List.sorted_mergeSort' _) (List.sorted_mergeSort' _)
    simp only [envChanged, Bool.or_eq_false_iff, bne_eq_false_iff_eq,
      List.any_eq_false]
    refine ⟨by rw [hkeys], ?_⟩
    intro p hp
    rw [← hkeys] at hp
    have hpq := mem_zip_self _ p hp
    simp only [Bool.or_eq_true, bne_iff_ne, not_or, not_not]
    exact ⟨hpq, by rw [hpq, h p.2]⟩

/-- `depsChanged` is false exactly on lookup-equivalent dependency
maps (keys being unique, as they are in a JavaScript `Map`). -/
theorem depsChanged_eq_false_iff (o n : List (String × DepCondition))
    (ho : (o.map Prod.fst).Nodup) (hn : (n.map Prod.fst).Nodup) :
    depsChanged o n = false ↔ ∀ k, o.lookup k = n.lookup k := by
  constructor
  · intro h
    simp only [depsChanged, Bool.or_eq_false_iff, bne_eq_false_iff_eq,
      List.any_eq_false] at h
    obtain ⟨hlen, hall⟩ := h
    have hall' : ∀ d ∈ o, n.lookup d.1 = some d.2 := by
      intro d hd
      have h2 := hall d hd
      simpa using h2
    intro k
    cases ho' : o.lookup k with
    | some v =>
        have hmem := mem_of_lookup_eq_some o k v ho'
        exact (hall' (k, v) hmem).symm
    | none =>
        have hko : k ∉ o.map Prod.fst := (lookup_eq_none_iff o k).mp ho'
        have hsub : (o.map Prod.fst).toFinset ⊆ (n.map Prod.fst).toFinset := by
          intro k' hk'
          simp only [List.mem_toFinset] at hk' ⊢
          obtain ⟨d, hd, hfst⟩ := List.mem_map.mp hk'
          have := hall' d hd
          rw [hfst] at this
          exact (lookup_isSome_iff n k').mp (by simp [this])
        have hcards : (n.map Prod.fst).toFinset.card ≤ (o.map Prod.fst).toFinset.card := by
          rw [List.toFinset_card_of_nodup ho, List.toFinset_card_of_nodup hn]
          simp [hlen]
        have heq := Finset.eq_of_subset_of_card_le hsub hcards
        symm
        rw [lookup_eq_none_iff]
        intro hkn
        apply hko
        have : k ∈ (o.map Prod.fst).toFinset := heq ▸ List.mem_toFinset.mpr hkn
        exact List.mem_toFinset.mp this
  · intro h
    simp only [depsChanged, Bool.or_eq_false_iff, bne_eq_false_iff_eq,
      List.any_eq_false]
    constructor
    · have hperm : (o.map Prod.fst).Perm (n.map Prod.fst) := by
        refine List.perm_of_nodup_nodup_toFinset_eq ho hn ?_
        ext k
        simp only [List.mem_toFinset, ← lookup_isSome_iff, h k]
      have := hperm.length_eq
      simpa using this
    · intro d hd
      have hlk : o.lookup d.1 = some d.2 :=
        lookup_of_mem_nodup o d.1 d.2 (by simpa using hd) ho
      simp [← h d.1, hlk]

/-- `serviceConfigChanged` is false exactly when `cmd`, `cwd`,
`restart`, `group`, the env record (key by key) and the dependency map
all agree; `healthcheck`, `color` and `stopSignal` play no role. -/
theorem serviceConfigChanged_eq_false_iff (o n : NormalizedService)
    (hoe : (o.env.map Prod.fst).Nodup) (hne : (n.env.map Prod.fst).Nodup)
    (hod : (o.dependsOn.map Prod.fst).Nodup) (hnd : (n.dependsOn.map Prod.fst).Nodup) :
    serviceConfigChanged o n = false ↔
      (o.cmd = n.cmd ∧ o.cwd = n.cwd ∧ o.restart = n.restart ∧ o.group = n.group ∧
       (∀ k, o.env.lookup k = n.env.lookup k) ∧
       (∀ k, o.dependsOn.lookup k = n.dependsOn.lookup k)) := by
  simp only [serviceConfigChanged, Bool.or_eq_false_iff, bne_eq_false_iff_eq]
  rw [envChanged_eq_false_iff o.env n.env hoe hne,
    depsChanged_eq_false_iff o.dependsOn n.dependsOn hod hnd]
  tauto

theorem envChanged_self (e : List (String × String)) : envChanged e e = false := by
  simp only [envChanged, bne_self_eq_false, Bool.false_or, List.any_eq_false]
  intro p hp
  have hpq := mem_zip_self _ p hp
  simp [hpq]

theorem depsChanged_self (d : List (String × DepCondition))
    (hd : (d.map Prod.fst).Nodup) : depsChanged d d = false := by
  simp only [depsChanged, bne_self_eq_false, Bool.false_or, List.any_eq_false]
  intro p hp
  have hlk : d.lookup p.1 = some p.2 :=
    lookup_of_mem_nodup d p.1 p.2 (by simpa using hp) hd
  simp [hlk]

theorem serviceConfigChanged_self (s : NormalizedService)
    (hd : (s.dependsOn.map Prod.fst).Nodup) : serviceConfigChanged s s = false := by
  simp [serviceConfigChanged, envChanged_self, depsChanged_self s.dependsOn hd]

/-- C6: `reloadConfig` classifies a name as `added` iff it is only in
the new config, `removed` iff only in the old, and `modified` iff
present in both with `serviceConfigChanged`, which holds exactly when
one of `cmd`, `cwd`, `env` (key by key), `dependsOn`, `restart`,
`group` differs (`healthcheck`, `color` and `stopSignal` are not
compared); reloading an identical config yields empty `added`,
`removed` and `modified` and stops or starts no service. -/
theorem c6_reload :
    (∀ o n : NormalizedService,
      (o.env.map Prod.fst).Nodup → (n.env.map Prod.fst).Nodup →
      (o.dependsOn.map Prod.fst).Nodup → (n.dependsOn.map Prod.fst).Nodup →
      (serviceConfigChanged o n = false ↔
        (o.cmd = n.cmd ∧ o.cwd = n.cwd ∧ o.restart = n.restart ∧ o.group = n.group ∧
         (∀ k, o.env.lookup k = n.env.lookup k) ∧
         (∀ k, o.dependsOn.lookup k = n.dependsOn.lookup k)))) ∧
    (∀ (old new : List (String × NormalizedService)) (nm : String),
      nm ∈ (reloadDiff old new).1 ↔
        nm ∈ new.map Prod.fst ∧ nm ∉ old.map Prod.fst) ∧
    (∀ (old new : List (String × NormalizedService)) (nm : String),
      nm ∈ (reloadDiff old new).2.1 ↔
        nm ∈ old.map Prod.fst ∧ nm ∉ new.map Prod.fst) ∧
    (∀ (old new : List (String × NormalizedService)) (nm : String),
      (new.map Prod.fst).Nodup →
      (nm ∈ (reloadDiff old new).2.2 ↔
        ∃ os ns, old.lookup nm = some os ∧ new.lookup nm = some ns ∧
          serviceConfigChanged os ns = true)) ∧
    (∀ cfg : List (String × NormalizedService), (cfg.map Prod.fst).Nodup →
      (∀ p ∈ cfg, (p.2.dependsOn.map Prod.fst).Nodup) →
      reloadDiff cfg cfg = ([], [], []) ∧
      (∀ running, reloadStops cfg cfg running = []) ∧
      (∀ f, reloadStarts cfg cfg f = [])) := by
  refine ⟨?_, ?_, ?_, ?_, ?_⟩
  · intro o n h1 h2 h3 h4
    exact serviceConfigChanged_eq_false_iff o n h1 h2 h3 h4
  · intro old new nm
    simp only [reloadDiff, List.mem_map, List.mem_filter]
    constructor
    · rintro ⟨p, ⟨hmem, hnone⟩, rfl⟩
      refine ⟨⟨p, hmem, rfl⟩, ?_⟩
      rintro ⟨a, ha, hfst⟩
      have hs : p.1 ∈ old.map Prod.fst := List.mem_map.mpr ⟨a, ha, hfst⟩
      rw [← lookup_isSome_iff] at hs
      rw [Option.isNone_iff_eq_none] at hnone
      rw [hnone] at hs
      simp at hs
    · rintro ⟨hin, hout⟩
      obtain ⟨p, hmem, hfst⟩ := hin
      refine ⟨p, ⟨hmem, ?_⟩, hfst⟩
      rw [Option.isNone_iff_eq_none, lookup_eq_none_iff, hfst]
      exact fun hmm => hout (List.mem_map.mp hmm |>.elim fun a ha => ⟨a, ha.1, ha.2⟩)
  · intro old new nm
    simp only [reloadDiff, List.mem_map, List.mem_filter]
    constructor
    · rintro ⟨p, ⟨hmem, hnone⟩, rfl⟩
      refine ⟨⟨p, hmem, rfl⟩, ?_⟩
      rintro ⟨a, ha, hfst⟩
      have hs : p.1 ∈ new.map Prod.fst := List.mem_map.mpr ⟨a, ha, hfst⟩
      rw [← lookup_isSome_iff] at hs
      rw [Option.isNone_iff_eq_none] at hnone
      rw [hnone] at hs
      simp at hs
    · rintro ⟨hin, hout⟩
      obtain ⟨p, hmem, hfst⟩ := hin
      refine ⟨p, ⟨hmem, ?_⟩, hfst⟩
      rw [Option.isNone_iff_eq_none, lookup_eq_none_iff, hfst]
      exact fun hmm => hout (List.mem_map.mp hmm |>.elim fun a ha => ⟨a, ha.1, ha.2⟩)
  · intro old new nm hnew
    simp only [reloadDiff, List.mem_filterMap]
    constructor
    · rintro ⟨p, hmem, hsome⟩
      cases hlk : old.lookup p.1 with
      | none => rw [hlk] at hsome; simp at hsome
      | some os =>
          rw [hlk] at hsome
          rw [show (match some os with
            | some os => if serviceConfigChanged os p.2 = true then some p.1 else none
            | none => none)
            = (if serviceConfigChanged os p.2 = true then some p.1 else none) from rfl] at hsome
          by_cases hch : serviceConfigChanged os p.2 = true
          · rw [if_pos hch] at hsome
            have hnm : p.1 = nm := by simpa using hsome
            subst hnm
            exact ⟨os, p.2,
              hlk,
              lookup_of_mem_nodup new p.1 p.2 (by simpa using hmem) hnew,
              hch⟩
          · rw [if_neg hch] at hsome
            simp at hsome
    · rintro ⟨os, ns, h1, h2, h3⟩
      refine ⟨(nm, ns), mem_of_lookup_eq_some new nm ns h2, ?_⟩
      rw [show ((nm, ns) : String × NormalizedService).1 = nm from rfl, h1]
      rw [show (match some os with
        | some os => if serviceConfigChanged os ns = true then some nm else none
        | none => none)
        = (if serviceConfigChanged os ns = true then some nm else none) from rfl]
      rw [if_pos h3]
  · intro cfg hnd hdeps
    have hdiff : reloadDiff cfg cfg = ([], [], []) := by
      simp only [reloadDiff]
      refine Prod.ext ?_ (Prod.ext ?_ ?_)
      · simp only
        rw [List.map_eq_nil_iff, List.filter_eq_nil_iff]
        intro p hp
        have hsome : (cfg.lookup p.1).isSome :=
          (lookup_isSome_iff cfg p.1).mpr (List.mem_map.mpr ⟨p, hp, rfl⟩)
        simp only [Option.isNone_iff_eq_none]
        intro hnone
        rw [hnone] at hsome
        simp at hsome
      · simp only
        rw [List.map_eq_nil_iff, List.filter_eq_nil_iff]
        intro p hp
        have hsome : (cfg.lookup p.1).isSome :=
          (lookup_isSome_iff cfg p.1).mpr (List.mem_map.mpr ⟨p, hp, rfl⟩)
        simp only [Option.isNone_iff_eq_none]
        intro hnone
        rw [hnone] at hsome
        simp at hsome
      · simp only
        rw [List.filterMap_eq_nil_iff]
        intro p hp
        rw [lookup_of_mem_nodup cfg p.1 p.2 (by simpa using hp) hnd]
        rw [show (match some p.2 with
          | some os => if serviceConfigChanged os p.2 = true then some p.1 else none
          | none => none)
          = (if serviceConfigChanged p.2 p.2 = true then some p.1 else none) from rfl]
        rw [if_neg (by simp [serviceConfigChanged_self p.2 (hdeps p hp)])]
    refine ⟨hdiff, ?_, ?_⟩
    · intro running
      simp [reloadStops, hdiff]
    · intro f
      simp [reloadStarts, hdiff]

/-- A minimal concrete service for witnesses. -/
def mkSvc (nm c : String) : NormalizedService :=
  { name := nm, cmd := c, cwd := "/", env := [], dependsOn := [],
    healthcheck := none, restart := .no, color := none,
    stopSignal := "SIGTERM", group := none }

/-- C6 witness: the theorem applied at a concrete one-service config
(identical reload) and at a concrete added service. -/
theorem c6_reload_witness :
    reloadDiff [("a", mkSvc "a" "x")] [("a", mkSvc "a" "x")] = ([], [], []) ∧
    ("b" ∈ (reloadDiff [] [("b", mkSvc "b" "y")]).1 ↔
      ("b" ∈ (["b"] : List String) ∧ "b" ∉ ([] : List String))) := by
  constructor
  · exact (c6_reload.2.2.2.2 [("a", mkSvc "a" "x")] (by decide)
      (by intro p hp; simp at hp; simp [hp, mkSvc])).1
  · have h := c6_reload.2.1 [] [("b", mkSvc "b" "y")] "b"
    simpa using h

/-! ## Dependency resolver (`getDependencyOrder`, config/loader.ts) -/

/-- A service map reduced to its dependency structure: each service
name mapped to the keys of its `dependsOn` map, in declaration
order. -/
abbrev ServiceMap := List (String × List String)

/-- The dependency keys of a service (an absent service has none). -/
def depsOf (g : ServiceMap) (n : String) : List String := (g.lookup n).getD []

/-- The declared service names in order. -/
def declaredNames (g : ServiceMap) : List String := g.map Prod.fst

/-- DFS state: the `visited` set (as its insertion-ordered list) and
the post-order `order` accumulator. -/
structure DfsState where
  visited : List String
  order : List String

/-- `visit` inside `getDependencyOrder`: mark the node visited on
entry, recurse into its dependencies, append the node after them.
`fuel` only bounds the recursion depth; every run below uses enough
fuel for it never to run out. -/
def visitD (g : ServiceMap) : Nat → String → DfsState → DfsState
  | 0, _, st => st
  | fuel + 1, n, st =>
      if n ∈ st.visited then st
      else
        let st1 : DfsState := { st with visited := st.visited ++ [n] }
        let st2 := (depsOf g n).foldl (fun s d => visitD g fuel d s) st1
        { st2 with order := st2.order ++ [n] }

/-- `getDependencyOrder` from config/loader.ts: depth-first post-order
over the services in declaration order. -/
def getDependencyOrder (g : ServiceMap) : List String :=
  ((declaredNames g).foldl (fun st n => visitD g (g.length + 1) n st) ⟨[], []⟩).order

/-- Count of declared names not yet visited (the fuel measure). -/
def unvisited (g : ServiceMap) (st : DfsState) : Nat :=
  ((declaredNames g).toFinset \ st.visited.toFinset).card

/-- Invariant of the DFS: `S` is the ghost set of nodes on the call
stack.  Visited nodes are exactly the finished ones (in `order`) plus
the in-progress ones (in `S`); the emitted prefix is duplicate-free and
topologically sorted. -/
structure DfsInv (g : ServiceMap) (S : Finset String) (st : DfsState) : Prop where
  ordNodup : st.order.Nodup
  visIff : ∀ x, x ∈ st.visited ↔ (x ∈ st.order ∨ x ∈ S)
  ordS : ∀ x ∈ st.order, x ∉ S
  visNames : ∀ x ∈ st.visited, x ∈ declaredNames g
  topo : ∀ (j : Nat) (a : String), st.order[j]? = some a →
      ∀ d ∈ depsOf g a, d ∈ st.order.take j

theorem unvisited_le_of_visited_grow (g : ServiceMap) (st st' : DfsState)
    (h : ∀ x ∈ st.visited, x ∈ st'.visited) :
    unvisited g st' ≤ unvisited g st := by
  apply Finset.card_le_card
  apply Finset.sdiff_subset_sdiff (le_refl _)
  intro x hx
  simp only [List.mem_toFinset] at hx ⊢
  exact h x hx

theorem unvisited_mark (g : ServiceMap) (st : DfsState) (n : String)
    (hn : n ∈ declaredNames g) (hnv : n ∉ st.visited) :
    unvisited g { st with visited := st.visited ++ [n] } + 1 = unvisited g st := by
  simp only [unvisited]
  have h1 : (st.visited ++ [n]).toFinset = insert n st.visited.toFinset := by
    ext x
    simp [List.mem_toFinset, or_comm]
  rw [h1]
  have h2 : (declaredNames g).toFinset \ insert n st.visited.toFinset =
      ((declaredNames g).toFinset \ st.visited.toFinset).erase n := by
    ext x
    simp only [Finset.mem_sdiff, Finset.mem_insert, Finset.mem_erase, List.mem_toFinset]
    tauto
  rw [h2]
  rw [Finset.card_erase_of_mem]
  · have hpos : 0 < ((declaredNames g).toFinset \ st.visited.toFinset).card := by
      apply Finset.card_pos.mpr
      exact ⟨n, by simp [Finset.mem_sdiff, List.mem_toFinset, hn, hnv]⟩
    omega
  · simp [Finset.mem_sdiff, List.mem_toFinset, hn, hnv]

theorem nodup_append_singleton {l : List String} {x : String}
    (h1 : l.Nodup) (h2 : x ∉ l) : (l ++ [x]).Nodup := by
  rw [List.nodup_append]
  refine ⟨h1, List.nodup_singleton x, ?_⟩
  intro a ha hax
  simp only [List.mem_singleton] at hax
  subst hax
  exact h2 ha

/-- Specification of one `visit` call: given the invariant for the
ghost stack `S`, a node below every stack entry in rank, and enough
fuel, the call only grows `visited`, appends to `order`, re-establishes
the invariant, and leaves the node in `order`. -/
theorem visitD_spec (g : ServiceMap) (rank : String → Nat)
    (hclosed : ∀ a, ∀ d ∈ depsOf g a, d ∈ declaredNames g)
    (hrank : ∀ a, ∀ d ∈ depsOf g a, rank d < rank a) :
    ∀ (fuel : Nat) (S : Finset String) (n : String) (st : DfsState),
      n ∈ declaredNames g →
      (∀ s ∈ S, rank n < rank s) →
      DfsInv g S st →
      unvisited g st < fuel →
      (∀ x ∈ st.visited, x ∈ (visitD g fuel n st).visited) ∧
      (∃ Δ, (visitD g fuel n st).order = st.order ++ Δ) ∧
      DfsInv g S (visitD g fuel n st) ∧
      n ∈ (visitD g fuel n st).order := by
  intro fuel
  induction fuel with
  | zero =>
      intro S n st _ _ _ hf
      omega
  | succ fuel ih =>
      intro S n st hn hstack hinv hf
      by_cases hv : n ∈ st.visited
      · have hres : visitD g (fuel + 1) n st = st := by
          rw [visitD, if_pos hv]
        rw [hres]
        refine ⟨fun x hx => hx, ⟨[], by simp⟩, hinv, ?_⟩
        rcases (hinv.visIff n).mp hv with h | h
        · exact h
        · exact absurd (hstack n h) (lt_irrefl _)
      · have hres : visitD g (fuel + 1) n st =
            (let st1 : DfsState := { st with visited := st.visited ++ [n] };
             let st2 := (depsOf g n).foldl (fun s d => visitD g fuel d s) st1;
             { st2 with order := st2.order ++ [n] }) := by
          rw [visitD, if_neg hv]
        have hnS : n ∉ S := fun hcon => absurd (hstack n hcon) (lt_irrefl _)
        set st1 : DfsState := { st with visited := st.visited ++ [n] } with hst1
        have inv1 : DfsInv g (insert n S) st1 := by
          refine ⟨hinv.ordNodup, ?_, ?_, ?_, hinv.topo⟩
          · intro x
            simp only [hst1, List.mem_append, List.mem_singleton, Finset.mem_insert]
            rw [hinv.visIff x]
            tauto
          · intro x hx
            simp only [Finset.mem_insert, not_or]
            constructor
            · intro heq
              subst heq
              exact hv ((hinv.visIff x).mpr (Or.inl hx))
            · exact hinv.ordS x hx
          · intro x hx
            simp only [hst1, List.mem_append, List.mem_singleton] at hx
            rcases hx with h | h
            · exact hinv.visNames x h
            · subst h; exact hn
        have hf1 : unvisited g st1 < fuel := by
          have hmark := unvisited_mark g st n hn hv
          rw [← hst1] at hmark
          omega
        -- the fold over the dependencies
        have hfold : ∀ (ds : List String) (st' : DfsState),
            (∀ d ∈ ds, d ∈ declaredNames g) →
            (∀ d ∈ ds, ∀ s ∈ insert n S, rank d < rank s) →
            DfsInv g (insert n S) st' →
            unvisited g st' < fuel →
            (∀ x ∈ st'.visited,
              x ∈ (ds.foldl (fun s d => visitD g fuel d s) st').visited) ∧
            (∃ Δ, (ds.foldl (fun s d => visitD g fuel d s) st').order = st'.order ++ Δ) ∧
            DfsInv g (insert n S) (ds.foldl (fun s d => visitD g fuel d s) st') ∧
            unvisited g (ds.foldl (fun s d => visitD g fuel d s) st') < fuel ∧
            (∀ d ∈ ds, d ∈ (ds.foldl (fun s d => visitD g fuel d s) st').order) := by
          intro ds
          induction ds with
          | nil =>
              intro st' _ _ hinv' hf'
              exact ⟨fun x hx => hx, ⟨[], by simp⟩, hinv', hf', by simp⟩
          | cons d ds ihds =>
              intro st' hd hr hinv' hf'
              obtain ⟨grow1, ⟨d1, e1⟩, invd, memd⟩ :=
                ih (insert n S) d st' (hd d (List.mem_cons_self d ds))
                  (hr d (List.mem_cons_self d ds)) hinv' hf'
              have hfd : unvisited g (visitD g fuel d st') < fuel :=
                lt_of_le_of_lt (unvisited_le_of_visited_grow g st' _ grow1) hf'
              obtain ⟨grow2, ⟨d2, e2⟩, inv2, hf2, mem2⟩ :=
                ihds (visitD g fuel d st')
                  (fun x hx => hd x (List.mem_cons_of_mem d hx))
                  (fun x hx => hr x (List.mem_cons_of_mem d hx)) invd hfd
              rw [List.foldl_cons]
              refine ⟨fun x hx => grow2 x (grow1 x hx),
                ⟨d1 ++ d2, by rw [e2, e1, List.append_assoc]⟩, inv2, hf2, ?_⟩
              intro d' hd'
              rcases List.mem_cons.mp hd' with h | h
              · subst h
                rw [e2]
                exact List.mem_append_left _ memd
              · exact mem2 d' h
        obtain ⟨grow2, ⟨Δf, ef⟩, inv2, _, memf⟩ :=
          hfold (depsOf g n) st1 (hclosed n)
            (by
              intro d hd s hs
              rcases Finset.mem_insert.mp hs with h | h
              · rw [h]; exact hrank n d hd
              · exact lt_trans (hrank n d hd) (hstack s h))
            inv1 hf1
        rw [hres]
        simp only
        set st2 := (depsOf g n).foldl (fun s d => visitD g fuel d s) st1 with hst2
        have hnord2 : n ∉ st2.order := by
          intro hcon
          exact inv2.ordS n hcon (Finset.mem_insert_self n S)
        constructor
        · intro x hx
          exact grow2 x (by simp [hst1, List.mem_append, hx])
        constructor
        · refine ⟨Δf ++ [n], ?_⟩
          rw [ef]
          simp [hst1, List.append_assoc]
        constructor
        · refine ⟨?_, ?_, ?_, ?_, ?_⟩
          · exact nodup_append_singleton inv2.ordNodup hnord2
          · intro x
            rw [show ({ st2 with order := st2.order ++ [n] } : DfsState).visited
                = st2.visited from rfl]
            rw [inv2.visIff x]
            simp only [List.mem_append, List.mem_singleton, Finset.mem_insert]
            tauto
          · intro x hx
            simp only [List.mem_append, List.mem_singleton] at hx
            rcases hx with h | h
            · intro hS
              exact inv2.ordS x h (Finset.mem_insert_of_mem hS)
            · subst h
              exact hnS
          · exact inv2.visNames
          · intro j a hja d hd
            by_cases hj : j < st2.order.length
            · rw [show ({ st2 with order := st2.order ++ [n] } : DfsState).order
                  = st2.order ++ [n] from rfl] at hja
              rw [List.getElem?_append_left hj] at hja
              have := inv2.topo j a hja d hd
              rw [show ({ st2 with order := st2.order ++ [n] } : DfsState).order
                  = st2.order ++ [n] from rfl]
              rw [List.take_append_of_le_length (le_of_lt hj)]
              exact this
            · by_cases hj2 : j = st2.order.length
              · subst hj2
                rw [show ({ st2 with order := st2.order ++ [n] } : DfsState).order
                    = st2.order ++ [n] from rfl] at hja
                rw [List.getElem?_concat_length] at hja
                have han : a = n := by simpa using hja.symm
                rw [han] at hd
                rw [show ({ st2 with order := st2.order ++ [n] } : DfsState).order
                    = st2.order ++ [n] from rfl]
                rw [List.take_left]
                exact memf d hd
              · exfalso
                rw [show ({ st2 with order := st2.order ++ [n] } : DfsState).order
                    = st2.order ++ [n] from rfl] at hja
                have hlen : (st2.order ++ [n]).length ≤ j := by
                  simp only [List.length_append, List.length_singleton]
                  omega
                rw [List.getElem?_eq_none hlen] at hja
                exact absurd hja (by simp)
        · exact List.mem_append_right _ (List.mem_singleton.mpr rfl)

theorem indexOf_lt_of_mem_take {d : String} :
    ∀ (l : List String) (j : Nat), d ∈ l.take j → l.indexOf d < j := by
  intro l
  induction l with
  | nil => intro j h; simp at h
  | cons a t ih =>
      intro j h
      cases j with
      | zero => simp at h
      | succ j' =>
          rw [List.take_succ_cons] at h
          by_cases hda : d = a
          · rw [hda, List.indexOf_cons_self]
            omega
          · have hdt : d ∈ t.take j' := by
              rcases List.mem_cons.mp h with h1 | h1
              · exact absurd h1 hda
              · exact h1
            rw [List.indexOf_cons_ne _ (fun heq => hda heq.symm)]
            have := ih j' hdt
            omega

/-- The outer loop of `getDependencyOrder`: folding `visit` over a list
of declared names preserves the invariant and leaves every name of the
list in the order. -/
theorem dfs_outer (g : ServiceMap) (rank : String → Nat)
    (hclosed : ∀ a, ∀ d ∈ depsOf g a, d ∈ declaredNames g)
    (hrank : ∀ a, ∀ d ∈ depsOf g a, rank d < rank a) :
    ∀ (ns : List String) (st : DfsState),
      (∀ x ∈ ns, x ∈ declaredNames g) →
      DfsInv g ∅ st →
      unvisited g st < g.length + 1 →
      DfsInv g ∅ (ns.foldl (fun st n => visitD g (g.length + 1) n st) st) ∧
      (∀ x ∈ st.order,
        x ∈ (ns.foldl (fun st n => visitD g (g.length + 1) n st) st).order) ∧
      (∀ x ∈ ns, x ∈ (ns.foldl (fun st n => visitD g (g.length + 1) n st) st).order) := by
  intro ns
  induction ns with
  | nil =>
      intro st _ hinv _
      exact ⟨hinv, fun x hx => hx, by simp⟩
  | cons m ms ih =>
      intro st hns hinv hf
      obtain ⟨grow1, ⟨Δ1, e1⟩, inv1, mem1⟩ :=
        visitD_spec g rank hclosed hrank (g.length + 1) ∅ m st
          (hns m (List.mem_cons_self m ms)) (by simp) hinv hf
      have hf1 : unvisited g (visitD g (g.length + 1) m st) < g.length + 1 :=
        lt_of_le_of_lt (unvisited_le_of_visited_grow g st _ grow1) hf
      obtain ⟨inv2, grow2, mem2⟩ :=
        ih (visitD g (g.length + 1) m st)
          (fun x hx => hns x (List.mem_cons_of_mem m hx)) inv1 hf1
      rw [List.foldl_cons]
      refine ⟨inv2, ?_, ?_⟩
      · intro x hx
        apply grow2
        rw [e1]
        exact List.mem_append_left _ hx
      · intro x hx
        rcases List.mem_cons.mp hx with h | h
        · rw [h]
          exact grow2 m mem1
        · exact mem2 x h

/-- C3: for every acyclic, closed service map with unique names,
`getDependencyOrder` returns a permutation of the declared names in
which every dependency appears strictly before every service depending
on it; the function is deterministic (it is a pure function of the
map).  Acyclicity is given by a rank function decreasing along
dependency edges; closedness says every dependency names a declared
service (the config validator enforces both before this function
runs). -/
theorem c3_dependency_order (g : ServiceMap) (rank : String → Nat)
    (h1 : (declaredNames g).Nodup)
    (h2 : ∀ p ∈ g, ∀ d ∈ p.2, d ∈ declaredNames g)
    (h3 : ∀ p ∈ g, ∀ d ∈ p.2, rank d < rank p.1) :
    (getDependencyOrder g).Perm (declaredNames g) ∧
    (∀ a ∈ declaredNames g, ∀ d ∈ depsOf g a,
      (getDependencyOrder g).indexOf d < (getDependencyOrder g).indexOf a) ∧
    getDependencyOrder g = getDependencyOrder g := by
  have hclosed : ∀ a, ∀ d ∈ depsOf g a, d ∈ declaredNames g := by
    intro a d hd
    simp only [depsOf] at hd
    cases hlk : g.lookup a with
    | none => rw [hlk] at hd; simp at hd
    | some ds =>
        rw [hlk] at hd
        exact h2 (a, ds) (mem_of_lookup_eq_some g a ds hlk) d hd
  have hrank : ∀ a, ∀ d ∈ depsOf g a, rank d < rank a := by
    intro a d hd
    simp only [depsOf] at hd
    cases hlk : g.lookup a with
    | none => rw [hlk] at hd; simp at hd
    | some ds =>
        rw [hlk] at hd
        exact h3 (a, ds) (mem_of_lookup_eq_some g a ds hlk) d hd
  have hinv0 : DfsInv g ∅ ⟨[], []⟩ := by
    refine ⟨List.nodup_nil, by simp, by simp, by simp, ?_⟩
    intro j a hja
    simp at hja
  have hf0 : unvisited g (⟨[], []⟩ : DfsState) < g.length + 1 := by
    simp only [unvisited]
    have : ((declaredNames g).toFinset \ (([] : List String)).toFinset).card ≤
        (declaredNames g).toFinset.card := by
      apply Finset.card_le_card
      exact Finset.sdiff_subset
    have h2c : (declaredNames g).toFinset.card ≤ (declaredNames g).length :=
      List.toFinset_card_le _
    have h3c : (declaredNames g).length = g.length := by
      simp [declaredNames]
    omega
  obtain ⟨invf, _, memf⟩ :=
    dfs_outer g rank hclosed hrank (declaredNames g) ⟨[], []⟩ (fun x hx => hx) hinv0 hf0
  set L := getDependencyOrder g with hL
  have hLdef : L = ((declaredNames g).foldl
      (fun st n => visitD g (g.length + 1) n st) ⟨[], []⟩).order := rfl
  have hsubset : ∀ x ∈ L, x ∈ declaredNames g := by
    intro x hx
    rw [hLdef] at hx
    exact invf.visNames x ((invf.visIff x).mpr (Or.inl hx))
  have hsup : ∀ x ∈ declaredNames g, x ∈ L := by
    intro x hx
    rw [hLdef]
    exact memf x hx
  have hnodupL : L.Nodup := hLdef ▸ invf.ordNodup
  have hperm : L.Perm (declaredNames g) := by
    refine List.perm_of_nodup_nodup_toFinset_eq hnodupL h1 ?_
    ext x
    simp only [List.mem_toFinset]
    exact ⟨hsubset x, hsup x⟩
  refine ⟨hperm, ?_, rfl⟩
  intro a ha d hd
  have haL : a ∈ L := hsup a ha
  have hidx : L.indexOf a < L.length := List.indexOf_lt_length.mpr haL
  have hget : L[L.indexOf a]? = some a := by
    rw [List.getElem?_eq_getElem hidx]
    rw [List.getElem_indexOf hidx]
  have htake : d ∈ L.take (L.indexOf a) := by
    have := invf.topo (L.indexOf a) a (hLdef ▸ hget) d hd
    rw [← hLdef] at this
    exact this
  exact indexOf_lt_of_mem_take L (L.indexOf a) htake

/-- C3 witness: the theorem applied at the two-service map where `b`
depends on `a`; the order is a permutation of the names and `a`
precedes `b`. -/
theorem c3_dependency_order_witness :
    (getDependencyOrder [("a", []), ("b", ["a"])]).Perm ["a", "b"] ∧
    (getDependencyOrder [("a", []), ("b", ["a"])]).indexOf "a" <
      (getDependencyOrder [("a", []), ("b", ["a"])]).indexOf "b" := by
  have h := c3_dependency_order [("a", []), ("b", ["a"])]
    (fun s => if s = "b" then 1 else 0) (by decide) (by decide) (by decide)
  refine ⟨h.1, ?_⟩
  exact h.2.1 "b" (by decide) "a" (by decide)

/-! ## Cycle detection (`validateNoCycles`, config/loader.ts) -/

/-- State of the cycle check: the permanently `visited` set (insertion
order kept) and the `inStack` in-progress set. -/
structure CycState where
  visited : List String
  inStack : List String

/-- Sequencing of recursive `visit` calls: the first thrown error
propagates (a JavaScript `throw` aborts the whole loop). -/
def exceptFold (f : String → CycState → Except String CycState) :
    List String → CycState → Except String CycState
  | [], st => .ok st
  | d :: ds, st =>
      match f d st with
      | .error e => .error e
      | .ok st' => exceptFold f ds st'

/-- `visit` inside `validateNoCycles`: re-entering an in-progress node
throws with the traversal path joined by `" -> "` and ended by the
re-entered node; a visited node returns; otherwise the node goes on the
stack, its dependencies are visited with the extended path, and on
return it moves from the stack to `visited`. -/
def visitC (g : ServiceMap) : Nat → String → List String → CycState → Except String CycState
  | 0, _, _, st => .ok st
  | fuel + 1, n, path, st =>
      if n ∈ st.inStack then
        .error ("Circular dependency detected: " ++ String.intercalate " -> " (path ++ [n]))
      else if n ∈ st.visited then .ok st
      else
        match exceptFold (fun d s => visitC g fuel d (path ++ [n]) s) (depsOf g n)
            { st with inStack := st.inStack ++ [n] } with
        | .error e => .error e
        | .ok st2 => .ok { visited := st2.visited ++ [n], inStack := st2.inStack.erase n }

/-- `validateNoCycles` from config/loader.ts. -/
def validateNoCycles (g : ServiceMap) : Except String Unit :=
  match exceptFold (fun nm s => visitC g (g.length + 1) nm [] s) (declaredNames g) ⟨[], []⟩ with
  | .error e => .error e
  | .ok _ => .ok ()

/-- A list whose consecutive elements are dependency edges. -/
def edgeChain (g : ServiceMap) (l : List String) : Prop :=
  List.Chain' (fun x y => y ∈ depsOf g x) l

/-- A non-empty dependency path between two nodes. -/
inductive EdgePath (g : ServiceMap) : String → String → Prop
  | single {a d : String} : d ∈ depsOf g a → EdgePath g a d
  | cons {a d b : String} : d ∈ depsOf g a → EdgePath g d b → EdgePath g a b

/-- The `dependsOn` graph contains a cycle. -/
def hasCycle (g : ServiceMap) : Prop := ∃ n, EdgePath g n n

theorem edgePath_rank (g : ServiceMap) (rank : String → Nat)
    (hrank : ∀ a, ∀ d ∈ depsOf g a, rank d < rank a) {a b : String}
    (h : EdgePath g a b) : rank b < rank a := by
  induction h with
  | single hd => exact hrank _ _ hd
  | cons hd _ ih => exact lt_trans ih (hrank _ _ hd)

theorem no_cycle_of_rank (g : ServiceMap) (rank : String → Nat)
    (hrank : ∀ a, ∀ d ∈ depsOf g a, rank d < rank a) : ¬ hasCycle g := by
  rintro ⟨n, hp⟩
  exact absurd (edgePath_rank g rank hrank hp) (lt_irrefl _)

theorem chain_to_edgePath (g : ServiceMap) :
    ∀ (l : List String) (a b : String),
      edgeChain g (a :: (l ++ [b])) → EdgePath g a b := by
  intro l
  induction l with
  | nil =>
      intro a b h
      simp only [edgeChain, List.nil_append, List.chain'_cons, List.chain'_singleton,
        and_true] at h
      exact EdgePath.single h
  | cons c l ih =>
      intro a b h
      simp only [edgeChain, List.cons_append, List.chain'_cons] at h
      exact EdgePath.cons h.1 (ih c b h.2)

theorem cycle_of_chain_mem (g : ServiceMap) :
    ∀ (p : List String) (m : String), m ∈ p → edgeChain g (p ++ [m]) →
      EdgePath g m m := by
  intro p
  induction p with
  | nil => intro m hm; simp at hm
  | cons x p' ih =>
      intro m hm hchain
      by_cases hmx : m = x
      · subst hmx
        exact chain_to_edgePath g p' m m (by simpa using hchain)
      · have hm' : m ∈ p' := by
          rcases List.mem_cons.mp hm with h | h
          · exact absurd h hmx
          · exact h
        refine ih m hm' ?_
        have := (List.chain'_cons'.mp (by simpa [edgeChain] using hchain)).2
        simpa [edgeChain] using this

/-- Fuel measure for the cycle check: declared names not currently on
the stack. -/
def stacked (g : ServiceMap) (st : CycState) : Nat :=
  ((declaredNames g).toFinset \ st.inStack.toFinset).card

theorem stacked_mark (g : ServiceMap) (st : CycState) (n : String)
    (hn : n ∈ declaredNames g) (hns : n ∉ st.inStack) :
    stacked g { st with inStack := st.inStack ++ [n] } + 1 = stacked g st := by
  simp only [stacked]
  have h1 : (st.inStack ++ [n]).toFinset = insert n st.inStack.toFinset := by
    ext x
    simp [List.mem_toFinset, or_comm]
  rw [h1]
  have h2 : (declaredNames g).toFinset \ insert n st.inStack.toFinset =
      ((declaredNames g).toFinset \ st.inStack.toFinset).erase n := by
    ext x
    simp only [Finset.mem_sdiff, Finset.mem_insert, Finset.mem_erase, List.mem_toFinset]
    tauto
  rw [h2, Finset.card_erase_of_mem]
  · have hpos : 0 < ((declaredNames g).toFinset \ st.inStack.toFinset).card := by
      apply Finset.card_pos.mpr
      exact ⟨n, by simp [Finset.mem_sdiff, List.mem_toFinset, hn, hns]⟩
    omega
  · simp [Finset.mem_sdiff, List.mem_toFinset, hn, hns]

theorem erase_append_singleton (l : List String) (n : String) (h : n ∉ l) :
    (l ++ [n]).erase n = l := by
  induction l with
  | nil => simp
  | cons a t ih =>
      have hna : ¬ n = a := fun heq => h (heq ▸ List.mem_cons_self a t)
      rw [List.cons_append, List.erase_cons_tail]
      · rw [ih (fun hmem => h (List.mem_cons_of_mem a hmem))]
      · simp
        exact fun heq => hna heq.symm

theorem edgeChain_snoc (g : ServiceMap) (l : List String) (x y : String)
    (h : edgeChain g (l ++ [x])) (hxy : y ∈ depsOf g x) :
    edgeChain g ((l ++ [x]) ++ [y]) := by
  rw [edgeChain, List.chain'_append]
  refine ⟨h, List.chain'_singleton y, ?_⟩
  intro a ha b hb
  rw [List.getLast?_concat] at ha
  simp only [List.head?_cons, Option.mem_def, Option.some.injEq] at ha hb
  rw [← ha, ← hb]
  exact hxy

/-- Invariant of the cycle check: visited nodes are declared and their
dependencies were completed (appear earlier in `visited`). -/
structure CycInv (g : ServiceMap) (st : CycState) : Prop where
  visNames : ∀ x ∈ st.visited, x ∈ declaredNames g
  visTopo : ∀ (j : Nat) (a : String), st.visited[j]? = some a →
      ∀ d ∈ depsOf g a, d ∈ st.visited.take j

/-- The error messages `visitC` can produce, and what an `ok` return
guarantees: the stack is restored, `visited` only grows, the invariant
is maintained, and the visited node is recorded. -/
theorem visitC_spec (g : ServiceMap)
    (hclosed : ∀ a, ∀ d ∈ depsOf g a, d ∈ declaredNames g) :
    ∀ (fuel : Nat) (n : String) (path : List String) (st : CycState),
      n ∈ declaredNames g →
      st.inStack = path →
      edgeChain g (path ++ [n]) →
      CycInv g st →
      stacked g st < fuel →
      (∀ e, visitC g fuel n path st = .error e →
        ∃ p m, e = "Circular dependency detected: " ++
            String.intercalate " -> " (p ++ [m]) ∧
          m ∈ p ∧ edgeChain g (p ++ [m])) ∧
      (∀ stf, visitC g fuel n path st = .ok stf →
        stf.inStack = st.inStack ∧
        (∀ x ∈ st.visited, x ∈ stf.visited) ∧
        CycInv g stf ∧
        n ∈ stf.visited) := by
  intro fuel
  induction fuel with
  | zero =>
      intro n path st _ _ _ _ hf
      omega
  | succ fuel ih =>
      intro n path st hn hsync hchain hinv hf
      by_cases hstk : n ∈ st.inStack
      · have hres : visitC g (fuel + 1) n path st =
            .error ("Circular dependency detected: " ++
              String.intercalate " -> " (path ++ [n])) := by
          rw [visitC, if_pos hstk]
        rw [hres]
        constructor
        · intro e he
          simp only [Except.error.injEq] at he
          refine ⟨path, n, he.symm, ?_, hchain⟩
          rw [← hsync]
          exact hstk
        · intro stf habs
          exact absurd habs (by simp)
      · by_cases hvis : n ∈ st.visited
        · have hres : visitC g (fuel + 1) n path st = .ok st := by
            rw [visitC, if_neg hstk, if_pos hvis]
          rw [hres]
          constructor
          · intro e habs
            exact absurd habs (by simp)
          · intro stf hok
            simp only [Except.ok.injEq] at hok
            rw [← hok]
            exact ⟨rfl, fun x hx => hx, hinv, hvis⟩
        · set st1 : CycState := { st with inStack := st.inStack ++ [n] } with hst1
          have hres : visitC g (fuel + 1) n path st =
              match exceptFold (fun d s => visitC g fuel d (path ++ [n]) s)
                  (depsOf g n) st1 with
              | .error e => .error e
              | .ok st2 =>
                  .ok { visited := st2.visited ++ [n], inStack := st2.inStack.erase n } := by
            rw [visitC, if_neg hstk, if_neg hvis]
          have hsync1 : st1.inStack = path ++ [n] := by
            simp only [hst1]
            rw [hsync]
          have hinv1 : CycInv g st1 := ⟨hinv.visNames, hinv.visTopo⟩
          have hf1 : stacked g st1 < fuel := by
            have hmark := stacked_mark g st n hn hstk
            rw [← hst1] at hmark
            omega
          have hfoldC : ∀ (ds : List String) (st' : CycState),
              (∀ d ∈ ds, d ∈ declaredNames g) →
              (∀ d ∈ ds, d ∈ depsOf g n) →
              st'.inStack = path ++ [n] →
              CycInv g st' →
              stacked g st' < fuel →
              (∀ e, exceptFold (fun d s => visitC g fuel d (path ++ [n]) s) ds st'
                  = .error e →
                ∃ p m, e = "Circular dependency detected: " ++
                    String.intercalate " -> " (p ++ [m]) ∧
                  m ∈ p ∧ edgeChain g (p ++ [m])) ∧
              (∀ st2, exceptFold (fun d s => visitC g fuel d (path ++ [n]) s) ds st'
                  = .ok st2 →
                st2.inStack = st'.inStack ∧
                (∀ x ∈ st'.visited, x ∈ st2.visited) ∧
                CycInv g st2 ∧
                (∀ d ∈ ds, d ∈ st2.visited)) := by
            intro ds
            induction ds with
            | nil =>
                intro st' _ _ _ hinv' _
                constructor
                · intro e habs
                  exact absurd habs (by simp [exceptFold])
                · intro st2 hok
                  simp only [exceptFold, Except.ok.injEq] at hok
                  rw [← hok]
                  exact ⟨rfl, fun x hx => hx, hinv', by simp⟩
            | cons d ds ihds =>
                intro st' hdnames hddeps hsync' hinv' hf'
                have hchaind : edgeChain g ((path ++ [n]) ++ [d]) :=
                  edgeChain_snoc g path n d hchain (hddeps d (List.mem_cons_self d ds))
                obtain ⟨herr1, hok1⟩ :=
                  ih d (path ++ [n]) st' (hdnames d (List.mem_cons_self d ds))
                    hsync' hchaind hinv' hf'
                cases hfe : visitC g fuel d (path ++ [n]) st' with
                | error e =>
                    have hres2 : exceptFold (fun d s => visitC g fuel d (path ++ [n]) s)
                        (d :: ds) st' = .error e := by
                      rw [exceptFold, hfe]
                    rw [hres2]
                    constructor
                    · intro e' he'
                      simp only [Except.error.injEq] at he'
                      rw [← he']
                      exact herr1 e hfe
                    · intro st2 habs
                      exact absurd habs (by simp)
                | ok std =>
                    obtain ⟨hsyncd, hgrowd, hinvd, hmemd⟩ := hok1 std hfe
                    have hres2 : exceptFold (fun d s => visitC g fuel d (path ++ [n]) s)
                        (d :: ds) st' =
                        exceptFold (fun d s => visitC g fuel d (path ++ [n]) s) ds std := by
                      rw [exceptFold, hfe]
                    have hsyncd' : std.inStack = path ++ [n] := by rw [hsyncd, hsync']
                    have hfd : stacked g std < fuel := by
                      have heq : stacked g std = stacked g st' := by
                        simp only [stacked]
                        rw [hsyncd]
                      omega
                    obtain ⟨herr2, hok2⟩ :=
                      ihds std (fun x hx => hdnames x (List.mem_cons_of_mem d hx))
                        (fun x hx => hddeps x (List.mem_cons_of_mem d hx))
                        hsyncd' hinvd hfd
                    rw [hres2]
                    constructor
                    · exact herr2
                    · intro st2 hok
                      obtain ⟨hs2, hg2, hi2, hm2⟩ := hok2 st2 hok
                      refine ⟨by rw [hs2, hsyncd], fun x hx => hg2 x (hgrowd x hx),
                        hi2, ?_⟩
                      intro d' hd'
                      rcases List.mem_cons.mp hd' with h | h
                      · rw [h]
                        exact hg2 d hmemd
                      · exact hm2 d' h
          obtain ⟨herrF, hokF⟩ :=
            hfoldC (depsOf g n) st1 (hclosed n) (fun d hd => hd) hsync1 hinv1 hf1
          cases hfe : exceptFold (fun d s => visitC g fuel d (path ++ [n]) s)
              (depsOf g n) st1 with
          | error e =>
              have hres2 : visitC g (fuel + 1) n path st = .error e := by
                rw [hres, hfe]
              rw [hres2]
              constructor
              · intro e' he'
                simp only [Except.error.injEq] at he'
                rw [← he']
                exact herrF e hfe
              · intro stf habs
                exact absurd habs (by simp)
          | ok st2 =>
              obtain ⟨hs2, hg2, hi2, hm2⟩ := hokF st2 hfe
              have hres2 : visitC g (fuel + 1) n path st =
                  .ok { visited := st2.visited ++ [n], inStack := st2.inStack.erase n } := by
                rw [hres, hfe]
              rw [hres2]
              constructor
              · intro e habs
                exact absurd habs (by simp)
              · intro stf hok
                simp only [Except.ok.injEq] at hok
                rw [← hok]
                have hvf : (⟨st2.visited ++ [n], st2.inStack.erase n⟩ : CycState).visited
                    = st2.visited ++ [n] := rfl
                have hsf : (⟨st2.visited ++ [n], st2.inStack.erase n⟩ : CycState).inStack
                    = st2.inStack.erase n := rfl
                refine ⟨?_, ?_, ?_, ?_⟩
                · rw [hsf, hs2]
                  simp only [hst1]
                  exact erase_append_singleton st.inStack n hstk
                · intro x hx
                  rw [hvf]
                  exact List.mem_append_left _ (hg2 x hx)
                · refine ⟨?_, ?_⟩
                  · intro x hx
                    rw [hvf] at hx
                    rcases List.mem_append.mp hx with h | h
                    · exact hi2.visNames x h
                    · simp only [List.mem_singleton] at h
                      rw [h]
                      exact hn
                  · intro j a hja d hd
                    rw [hvf] at hja ⊢
                    by_cases hj : j < st2.visited.length
                    · rw [List.getElem?_append_left hj] at hja
                      rw [List.take_append_of_le_length (le_of_lt hj)]
                      exact hi2.visTopo j a hja d hd
                    · by_cases hj2 : j = st2.visited.length
                      · rw [hj2, List.getElem?_concat_length] at hja
                        have han : a = n := by simpa using hja.symm
                        rw [han] at hd
                        rw [hj2, List.take_left]
                        exact hm2 d hd
                      · exfalso
                        have hlen : (st2.visited ++ [n]).length ≤ j := by
                          simp only [List.length_append, List.length_singleton]
                          omega
                        rw [List.getElem?_eq_none hlen] at hja
                        exact absurd hja (by simp)
                · rw [hvf]
                  exact List.mem_append_right _ (List.mem_singleton.mpr rfl)

/-- The outer loop of `validateNoCycles` over the declared names. -/
theorem cyc_outer (g : ServiceMap)
    (hclosed : ∀ a, ∀ d ∈ depsOf g a, d ∈ declaredNames g) :
    ∀ (ns : List String) (st : CycState),
      (∀ x ∈ ns, x ∈ declaredNames g) →
      st.inStack = [] →
      CycInv g st →
      stacked g st < g.length + 1 →
      (∀ e, exceptFold (fun nm s => visitC g (g.length + 1) nm [] s) ns st = .error e →
        ∃ p m, e = "Circular dependency detected: " ++
            String.intercalate " -> " (p ++ [m]) ∧
          m ∈ p ∧ edgeChain g (p ++ [m])) ∧
      (∀ stf, exceptFold (fun nm s => visitC g (g.length + 1) nm [] s) ns st = .ok stf →
        (∀ x ∈ st.visited, x ∈ stf.visited) ∧ CycInv g stf ∧
        (∀ x ∈ ns, x ∈ stf.visited)) := by
  intro ns
  induction ns with
  | nil =>
      intro st _ _ hinv _
      constructor
      · intro e habs
        exact absurd habs (by simp [exceptFold])
      · intro stf hok
        simp only [exceptFold, Except.ok.injEq] at hok
        rw [← hok]
        exact ⟨fun x hx => hx, hinv, by simp⟩
  | cons m ms ih =>
      intro st hns hsync hinv hf
      have hchain : edgeChain g ([] ++ [m]) := by
        simp [edgeChain]
      obtain ⟨herr1, hok1⟩ :=
        visitC_spec g hclosed (g.length + 1) m [] st
          (hns m (List.mem_cons_self m ms)) hsync hchain hinv hf
      cases hfe : visitC g (g.length + 1) m [] st with
      | error e =>
          have hres : exceptFold (fun nm s => visitC g (g.length + 1) nm [] s)
              (m :: ms) st = .error e := by
            rw [exceptFold, hfe]
          rw [hres]
          constructor
          · intro e' he'
            simp only [Except.error.injEq] at he'
            rw [← he']
            exact herr1 e hfe
          · intro stf habs
            exact absurd habs (by simp)
      | ok stm =>
          obtain ⟨hsyncm, hgrowm, hinvm, hmemm⟩ := hok1 stm hfe
          have hres : exceptFold (fun nm s => visitC g (g.length + 1) nm [] s)
              (m :: ms) st =
              exceptFold (fun nm s => visitC g (g.length + 1) nm [] s) ms stm := by
            rw [exceptFold, hfe]
          have hsyncm2 : stm.inStack = [] := by rw [hsyncm, hsync]
          have hfm : stacked g stm < g.length + 1 := by
            have heq : stacked g stm = stacked g st := by
              simp only [stacked]
              rw [hsyncm]
            omega
          obtain ⟨herr2, hok2⟩ :=
            ih stm (fun x hx => hns x (List.mem_cons_of_mem m hx)) hsyncm2 hinvm hfm
          rw [hres]
          refine ⟨herr2, ?_⟩
          intro stf hok
          obtain ⟨hg2, hi2, hm2⟩ := hok2 stf hok
          refine ⟨fun x hx => hg2 x (hgrowm x hx), hi2, ?_⟩
          intro x hx
          rcases List.mem_cons.mp hx with h | h
          · rw [h]
            exact hg2 m hmemm
          · exact hm2 x h

/-- Shared setup for the two directions of C4: the result of the
top-level fold, with the standard initial state. -/
theorem validateNoCycles_cases (g : ServiceMap)
    (h2 : ∀ p ∈ g, ∀ d ∈ p.2, d ∈ declaredNames g) :
    (∃ e, validateNoCycles g = .error e ∧
      ∃ p m, e = "Circular dependency detected: " ++
          String.intercalate " -> " (p ++ [m]) ∧
        m ∈ p ∧ edgeChain g (p ++ [m])) ∨
    (validateNoCycles g = .ok () ∧
      ∃ stf : CycState, CycInv g stf ∧ ∀ x ∈ declaredNames g, x ∈ stf.visited) := by
  have hclosed : ∀ a, ∀ d ∈ depsOf g a, d ∈ declaredNames g := by
    intro a d hd
    simp only [depsOf] at hd
    cases hlk : g.lookup a with
    | none => rw [hlk] at hd; simp at hd
    | some ds =>
        rw [hlk] at hd
        exact h2 (a, ds) (mem_of_lookup_eq_some g a ds hlk) d hd
  have hinv0 : CycInv g ⟨[], []⟩ := by
    refine ⟨by simp, ?_⟩
    intro j a hja
    simp at hja
  have hf0 : stacked g (⟨[], []⟩ : CycState) < g.length + 1 := by
    simp only [stacked]
    have hle : ((declaredNames g).toFinset \ (([] : List String)).toFinset).card ≤
        (declaredNames g).toFinset.card :=
      Finset.card_le_card Finset.sdiff_subset
    have h2c : (declaredNames g).toFinset.card ≤ (declaredNames g).length :=
      List.toFinset_card_le _
    have h3c : (declaredNames g).length = g.length := by simp [declaredNames]
    omega
  obtain ⟨herr, hok⟩ :=
    cyc_outer g hclosed (declaredNames g) ⟨[], []⟩ (fun x hx => hx) rfl hinv0 hf0
  cases hfe : exceptFold (fun nm s => visitC g (g.length + 1) nm [] s)
      (declaredNames g) ⟨[], []⟩ with
  | error e =>
      left
      refine ⟨e, ?_, herr e hfe⟩
      rw [validateNoCycles, hfe]
  | ok stf =>
      right
      obtain ⟨_, hinvf, hmemf⟩ := hok stf hfe
      constructor
      · rw [validateNoCycles, hfe]
      · exact ⟨stf, hinvf, hmemf⟩

/-- C4: for every service map whose dependencies all name declared
services, a cyclic `dependsOn` graph makes `validateNoCycles` fail with
a message of the shape `Circular dependency detected: <path joined by
" -> "> -> <re-entered node>` where the path is an edge chain
containing the re-entered node — so every node of the detected cycle
appears in traversal order; an acyclic map (witnessed by a rank
function decreasing along edges) validates without error; for the
two-service mutual cycle the message is exactly
`Circular dependency detected: a -> b -> a`. -/
theorem c4_cycle_validation :
    (∀ (g : ServiceMap) (rank : String → Nat),
      (∀ p ∈ g, ∀ d ∈ p.2, d ∈ declaredNames g) →
      (∀ p ∈ g, ∀ d ∈ p.2, rank d < rank p.1) →
      validateNoCycles g = .ok ()) ∧
    (∀ g : ServiceMap,
      (∀ p ∈ g, ∀ d ∈ p.2, d ∈ declaredNames g) →
      hasCycle g →
      ∃ e, validateNoCycles g = .error e ∧
        ∃ p m, e = "Circular dependency detected: " ++
            String.intercalate " -> " (p ++ [m]) ∧
          m ∈ p ∧ edgeChain g (p ++ [m])) ∧
    validateNoCycles [("a", ["b"]), ("b", ["a"])] =
      .error "Circular dependency detected: a -> b -> a" := by
  refine ⟨?_, ?_, by rfl⟩
  · intro g rank h2 h3
    have hrank : ∀ a, ∀ d ∈ depsOf g a, rank d < rank a := by
      intro a d hd
      simp only [depsOf] at hd
      cases hlk : g.lookup a with
      | none => rw [hlk] at hd; simp at hd
      | some ds =>
          rw [hlk] at hd
          exact h3 (a, ds) (mem_of_lookup_eq_some g a ds hlk) d hd
    rcases validateNoCycles_cases g h2 with ⟨e, _, p, m, _, hm, hch⟩ | ⟨hok, _⟩
    · exact absurd ⟨m, cycle_of_chain_mem g p m hm hch⟩ (no_cycle_of_rank g rank hrank)
    · exact hok
  · intro g h2 hcyc
    rcases validateNoCycles_cases g h2 with herr | ⟨_, stf, hinvf, hmemf⟩
    · exact herr
    · exfalso
      -- a successful validation yields a rank, contradicting the cycle
      have hrank : ∀ a, ∀ d ∈ depsOf g a,
          stf.visited.indexOf d < stf.visited.indexOf a := by
        intro a d hd
        have haNames : a ∈ declaredNames g := by
          simp only [depsOf] at hd
          cases hlk : g.lookup a with
          | none => rw [hlk] at hd; simp at hd
          | some ds =>
              have : (g.lookup a).isSome := by simp [hlk]
              exact (lookup_isSome_iff g a).mp this
        have haVis : a ∈ stf.visited := hmemf a haNames
        have hidx : stf.visited.indexOf a < stf.visited.length :=
          List.indexOf_lt_length.mpr haVis
        have hget : stf.visited[stf.visited.indexOf a]? = some a := by
          rw [List.getElem?_eq_getElem hidx, List.getElem_indexOf hidx]
        have htake := hinvf.visTopo (stf.visited.indexOf a) a hget d hd
        exact indexOf_lt_of_mem_take stf.visited (stf.visited.indexOf a) htake
      exact absurd hcyc (no_cycle_of_rank g (fun x => stf.visited.indexOf x) hrank)

/-- C4 witness: the theorem applied to a concrete acyclic map and to
the concrete two-service cycle. -/
theorem c4_cycle_validation_witness :
    validateNoCycles [("a", []), ("b", ["a"])] = .ok () ∧
    ∃ e, validateNoCycles [("a", ["b"]), ("b", ["a"])] = .error e ∧
      ∃ p m, e = "Circular dependency detected: " ++
          String.intercalate " -> " (p ++ [m]) ∧
        m ∈ p ∧ edgeChain [("a", ["b"]), ("b", ["a"])] (p ++ [m]) := by
  constructor
  · exact c4_cycle_validation.1 [("a", []), ("b", ["a"])]
      (fun s => if s = "b" then 1 else 0) (by decide) (by decide)
  · exact c4_cycle_validation.2.1 [("a", ["b"]), ("b", ["a"])] (by decide)
      ⟨"a", EdgePath.cons (d := "b") (by decide) (EdgePath.single (by decide))⟩

/-! ## Continuous healthcheck poller (`createHealthcheckPoller`,
healthcheck.ts) -/

inductive PEvent
  | startCall | stopCall | probeComplete | timerFire
  deriving DecidableEq

inductive PAction
  | probeStarted | callbackFired
  deriving DecidableEq

structure PollerState where
  running : Bool
  timerSet : Bool
  inFlight : Nat
  deriving DecidableEq

def pollerInit : PollerState := ⟨false, false, 0⟩

def pstep (st : PollerState) : PEvent → Option (PollerState × List PAction)
  | .startCall =>
      if st.running then some (st, [])
      else some (⟨true, st.timerSet, st.inFlight + 1⟩, [.probeStarted])
  | .stopCall => some (⟨false, false, st.inFlight⟩, [])
  | .probeComplete =>
      if st.inFlight = 0 then none
      else some (⟨st.running, if st.running then true else st.timerSet, st.inFlight - 1⟩,
        [.callbackFired])
  | .timerFire =>
      if st.timerSet then
        if st.running then some (⟨st.running, false, st.inFlight + 1⟩, [.probeStarted])
        else some (⟨st.running, false, st.inFlight⟩, [])
      else none

def prun : PollerState → List PEvent → Option (PollerState × List (List PAction))
  | st, [] => some (st, [])
  | st, e :: es =>
      match pstep st e with
      | none => none
      | some (st', acts) =>
          match prun st' es with
          | none => none
          | some (stf, log) => some (stf, acts :: log)

def countCallbacks (log : List (List PAction)) : Nat :=
  (log.map (fun acts => acts.count PAction.callbackFired)).sum

def goodP (st : PollerState) : Prop :=
  st.inFlight + (if st.timerSet then 1 else 0) ≤ 1 ∧
    (st.running = false → st.timerSet = false)

theorem pstep_good (st st' : PollerState) (e : PEvent) (acts : List PAction)
    (hne : e ≠ PEvent.startCall) (hs : pstep st e = some (st', acts))
    (hg : goodP st) : goodP st' := by
  obtain ⟨run, ts, fl⟩ := st
  obtain ⟨hg1, hg2⟩ := hg
  cases e with
  | startCall => exact absurd rfl hne
  | stopCall =>
      cases run <;> cases ts <;>
        (simp only [pstep, Option.some.injEq, Prod.mk.injEq] at hs;
         rw [← hs.1];
         simp_all [goodP])
  | probeComplete =>
      simp only [pstep] at hs
      split at hs
      · simp at hs
      · next hnz =>
          simp only [Option.some.injEq, Prod.mk.injEq] at hs
          rw [← hs.1]
          cases run <;> cases ts <;> simp_all [goodP] <;> omega
  | timerFire =>
      simp only [pstep] at hs
      cases run <;> cases ts <;> simp_all [goodP]
      rw [← hs.1]
      simp [goodP]

theorem prun_append (p q : List PEvent) :
    ∀ st : PollerState,
      prun st (p ++ q) =
        match prun st p with
        | none => none
        | some (st1, log1) =>
            match prun st1 q with
            | none => none
            | some (stf, log2) => some (stf, log1 ++ log2) := by
  induction p with
  | nil =>
      intro st
      simp only [List.nil_append, prun]
      cases prun st q with
      | none => rfl
      | some r => rfl
  | cons e es ih =>
      intro st
      rw [List.cons_append]
      simp only [prun]
      cases hs : pstep st e with
      | none => rfl
      | some r =>
          obtain ⟨st', acts⟩ := r
          simp only
          rw [ih st']
          cases hr : prun st' es with
          | none => rfl
          | some r1 =>
              obtain ⟨st1, log1⟩ := r1
              simp only
              cases prun st1 q with
              | none => rfl
              | some r2 => rfl

theorem prun_length (evs : List PEvent) :
    ∀ (st stf : PollerState) (log : List (List PAction)),
      prun st evs = some (stf, log) → log.length = evs.length := by
  induction evs with
  | nil =>
      intro st stf log h
      simp only [prun, Option.some.injEq, Prod.mk.injEq] at h
      rw [← h.2]
      rfl
  | cons e es ih =>
      intro st stf log h
      rw [prun] at h
      cases hs : pstep st e with
      | none => rw [hs] at h; simp at h
      | some r =>
          obtain ⟨st', acts⟩ := r
          rw [hs] at h
          simp only at h
          cases hr : prun st' es with
          | none => rw [hr] at h; simp at h
          | some r1 =>
              obtain ⟨st1, log1⟩ := r1
              rw [hr] at h
              simp only [Option.some.injEq, Prod.mk.injEq] at h
              rw [← h.2]
              simp [ih st' st1 log1 hr]

theorem prun_good (evs : List PEvent) :
    ∀ (st stf : PollerState) (log : List (List PAction)),
      PEvent.startCall ∉ evs → prun st evs = some (stf, log) →
      goodP st → goodP stf := by
  induction evs with
  | nil =>
      intro st stf log _ h hg
      simp only [prun, Option.some.injEq, Prod.mk.injEq] at h
      rw [← h.1]
      exact hg
  | cons e es ih =>
      intro st stf log hns h hg
      rw [prun] at h
      cases hs : pstep st e with
      | none => rw [hs] at h; simp at h
      | some r =>
          obtain ⟨st', acts⟩ := r
          rw [hs] at h
          simp only at h
          cases hr : prun st' es with
          | none => rw [hr] at h; simp at h
          | some r1 =>
              obtain ⟨st1, log1⟩ := r1
              rw [hr] at h
              simp only [Option.some.injEq, Prod.mk.injEq] at h
              rw [← h.1]
              have hne : e ≠ PEvent.startCall :=
                fun heq => hns (heq ▸ List.mem_cons_self e es)
              exact ih st' st1 log1 (fun hmem => hns (List.mem_cons_of_mem e hmem)) hr
                (pstep_good st st' e acts hne hs hg)

theorem prun_stopped (evs : List PEvent) :
    ∀ (st stf : PollerState) (log : List (List PAction)),
      PEvent.startCall ∉ evs →
      prun st evs = some (stf, log) →
      st.running = false → st.timerSet = false →
      stf.running = false ∧ stf.timerSet = false ∧
      (∀ acts ∈ log, PAction.probeStarted ∉ acts) ∧
      countCallbacks log ≤ st.inFlight := by
  induction evs with
  | nil =>
      intro st stf log _ h hr ht
      simp only [prun, Option.some.injEq, Prod.mk.injEq] at h
      rw [← h.1, ← h.2]
      exact ⟨hr, ht, by simp, by simp [countCallbacks]⟩
  | cons e es ih =>
      intro st stf log hns h hr ht
      rw [prun] at h
      cases hs : pstep st e with
      | none => rw [hs] at h; simp at h
      | some r =>
          obtain ⟨st', acts⟩ := r
          rw [hs] at h
          simp only at h
          cases hrr : prun st' es with
          | none => rw [hrr] at h; simp at h
          | some r1 =>
              obtain ⟨st1, log1⟩ := r1
              rw [hrr] at h
              simp only [Option.some.injEq, Prod.mk.injEq] at h
              obtain ⟨hst, hlog⟩ := h
              have hnse : PEvent.startCall ∉ es :=
                fun hmem => hns (List.mem_cons_of_mem e hmem)
              have hstep : st'.running = false ∧ st'.timerSet = false ∧
                  PAction.probeStarted ∉ acts ∧
                  acts.count PAction.callbackFired + st'.inFlight ≤ st.inFlight := by
                obtain ⟨run, ts, fl⟩ := st
                simp only at hr ht
                subst hr
                subst ht
                cases e with
                | startCall => exact absurd (List.mem_cons_self _ _) hns
                | stopCall =>
                    simp only [pstep, Option.some.injEq, Prod.mk.injEq] at hs
                    rw [← hs.1, ← hs.2]
                    exact ⟨rfl, rfl, by simp, by simp⟩
                | probeComplete =>
                    simp only [pstep] at hs
                    split at hs
                    · simp at hs
                    · next hnz =>
                        simp only [Option.some.injEq, Prod.mk.injEq] at hs
                        rw [← hs.1, ← hs.2]
                        refine ⟨rfl, rfl, by simp, ?_⟩
                        simp only [List.count_singleton]
                        simp
                        omega
                | timerFire =>
                    simp only [pstep] at hs
                    simp at hs
              obtain ⟨h1, h2, h3, h4⟩ := hstep
              obtain ⟨k1, k2, k3, k4⟩ := ih st' st1 log1 hnse hrr h1 h2
              rw [← hst, ← hlog]
              refine ⟨k1, k2, ?_, ?_⟩
              · intro a ha
                rcases List.mem_cons.mp ha with hh | hh
                · rw [hh]; exact h3
                · exact k3 a hh
              · simp only [countCallbacks, List.map_cons, List.sum_cons]
                have k4' : countCallbacks log1 ≤ st'.inFlight := k4
                simp only [countCallbacks] at k4'
                omega



theorem pstep_timer_from_completion (st st2 : PollerState) (e : PEvent)
    (acts : List PAction) (hs : pstep st e = some (st2, acts))
    (ht : st2.timerSet = true) :
    st.timerSet = true ∨ e = PEvent.probeComplete := by
  cases e with
  | probeComplete => exact Or.inr rfl
  | startCall =>
      left
      simp only [pstep] at hs
      split at hs
      · simp only [Option.some.injEq, Prod.mk.injEq] at hs
        rw [← hs.1] at ht
        exact ht
      · simp only [Option.some.injEq, Prod.mk.injEq] at hs
        rw [← hs.1] at ht
        exact ht
  | stopCall =>
      simp only [pstep, Option.some.injEq, Prod.mk.injEq] at hs
      rw [← hs.1] at ht
      simp at ht
  | timerFire =>
      left
      simp only [pstep] at hs
      split at hs
      · next hts => exact hts
      · simp at hs

theorem pstep_probe_source (st st2 : PollerState) (e : PEvent)
    (acts : List PAction) (hs : pstep st e = some (st2, acts))
    (hmem : PAction.probeStarted ∈ acts) :
    e = PEvent.startCall ∨ e = PEvent.timerFire := by
  cases e with
  | startCall => exact Or.inl rfl
  | timerFire => exact Or.inr rfl
  | stopCall =>
      simp only [pstep, Option.some.injEq, Prod.mk.injEq] at hs
      rw [← hs.2] at hmem
      simp at hmem
  | probeComplete =>
      simp only [pstep] at hs
      split at hs
      · simp at hs
      · simp only [Option.some.injEq, Prod.mk.injEq] at hs
        rw [← hs.2] at hmem
        simp at hmem

theorem prun_single (st : PollerState) (e : PEvent) :
    prun st [e] = match pstep st e with
      | none => none
      | some (st', acts) => some (st', [acts]) := by
  rw [prun]
  cases pstep st e with
  | none => rfl
  | some r =>
      obtain ⟨a, b⟩ := r
      simp [prun]

theorem pstep_stop (st : PollerState) :
    pstep st PEvent.stopCall = some (⟨false, false, st.inFlight⟩, []) := rfl

theorem pstep_start_init :
    pstep pollerInit PEvent.startCall = some (⟨true, false, 1⟩, [PAction.probeStarted]) := rfl

theorem goodP_after_start : goodP ⟨true, false, 1⟩ := by
  constructor
  · simp
  · intro h
    simp at h

/-- C9 (amended): for the continuous healthcheck poller, in any valid
execution with a single `start()` followed by events and a `stop()`, at
most one probe is in flight at any time, the timer for the next probe
is armed only when an attempt completes (so the interval is measured
from completion, not from start) and a probe begins only from `start`
or a timer firing; after `stop()` returns, no new probe is started and
at most one further result callback can fire — the one belonging to a
probe already in flight when `stop` was called (the claim's "no further
callback" does not hold for it). -/
theorem c9_poller_amended (mid post : List PEvent) (stf : PollerState)
    (log : List (List PAction))
    (hmid : PEvent.startCall ∉ mid) (hpost : PEvent.startCall ∉ post)
    (hrun : prun pollerInit ((PEvent.startCall :: mid) ++ (PEvent.stopCall :: post))
      = some (stf, log)) :
    (∀ (p q : List PEvent) (st' : PollerState) (log' : List (List PAction)),
      (PEvent.startCall :: mid) ++ (PEvent.stopCall :: post) = p ++ q →
      prun pollerInit p = some (st', log') → st'.inFlight ≤ 1) ∧
    (∀ acts ∈ log.drop (mid.length + 2), PAction.probeStarted ∉ acts) ∧
    countCallbacks (log.drop (mid.length + 2)) ≤ 1 ∧
    (∀ (st st2 : PollerState) (e : PEvent) (acts : List PAction),
      pstep st e = some (st2, acts) → st2.timerSet = true →
      st.timerSet = true ∨ e = PEvent.probeComplete) ∧
    (∀ (st st2 : PollerState) (e : PEvent) (acts : List PAction),
      pstep st e = some (st2, acts) → PAction.probeStarted ∈ acts →
      e = PEvent.startCall ∨ e = PEvent.timerFire) := by
  have hfull : (PEvent.startCall :: mid) ++ (PEvent.stopCall :: post)
      = (PEvent.startCall :: (mid ++ [PEvent.stopCall])) ++ post := by
    simp
  refine ⟨?_, ?_, ?_, pstep_timer_from_completion, pstep_probe_source⟩
  case _ =>
    -- at most one probe in flight after any prefix of the trace
    intro p q st' log' hsplit hp
    cases p with
    | nil =>
        simp only [prun, Option.some.injEq, Prod.mk.injEq] at hp
        rw [← hp.1]
        simp [pollerInit]
    | cons p0 p' =>
        have hp0 : p0 = PEvent.startCall := by
          have := congrArg (fun l => l.head?) hsplit
          simpa using this.symm
        subst hp0
        have hmemp' : PEvent.startCall ∉ p' := by
          intro hmem
          have hx : PEvent.startCall ∈ p' ++ q := List.mem_append_left _ hmem
          have htl : mid ++ PEvent.stopCall :: post = p' ++ q := by
            simpa using congrArg List.tail hsplit
          rw [← htl] at hx
          rcases List.mem_append.mp hx with h | h
          · exact hmid h
          · rcases List.mem_cons.mp h with h2 | h2
            · exact absurd h2 (by simp)
            · exact hpost h2
        rw [prun, pstep_start_init] at hp
        simp only at hp
        cases hr : prun ⟨true, false, 1⟩ p' with
        | none => rw [hr] at hp; simp at hp
        | some r1 =>
            obtain ⟨st1, log1⟩ := r1
            rw [hr] at hp
            simp only [Option.some.injEq, Prod.mk.injEq] at hp
            have hg := prun_good p' ⟨true, false, 1⟩ st1 log1 hmemp' hr goodP_after_start
            rw [← hp.1]
            obtain ⟨hg1, _⟩ := hg
            omega
  all_goals {
    -- split the run at the stop call
    rw [hfull, prun_append] at hrun
    rcases h1 : prun pollerInit (PEvent.startCall :: (mid ++ [PEvent.stopCall])) with _ | r1
    · rw [h1] at hrun; simp at hrun
    · obtain ⟨st1, log1⟩ := r1
      rw [h1] at hrun
      simp only at hrun
      rcases h2 : prun st1 post with _ | r2
      · rw [h2] at hrun; simp at hrun
      · obtain ⟨st2, log2⟩ := r2
        rw [h2] at hrun
        simp only [Option.some.injEq, Prod.mk.injEq] at hrun
        obtain ⟨hstf, hlog⟩ := hrun
        -- the state after the stop call is stopped with at most one probe
        have hst1 : st1.running = false ∧ st1.timerSet = false ∧ st1.inFlight ≤ 1 := by
          have hmid2 : prun pollerInit (PEvent.startCall :: (mid ++ [PEvent.stopCall]))
              = some (st1, log1) := h1
          rw [show (PEvent.startCall :: (mid ++ [PEvent.stopCall]))
              = (PEvent.startCall :: mid) ++ [PEvent.stopCall] from by simp,
            prun_append] at hmid2
          rcases h3 : prun pollerInit (PEvent.startCall :: mid) with _ | r3
          · rw [h3] at hmid2; simp at hmid2
          · obtain ⟨stm, logm⟩ := r3
            rw [h3] at hmid2
            simp only at hmid2
            rw [prun_single, pstep_stop] at hmid2
            simp only [Option.some.injEq, Prod.mk.injEq] at hmid2
            have hgm : goodP stm := by
              rw [prun, pstep_start_init] at h3
              simp only at h3
              rcases h4 : prun ⟨true, false, 1⟩ mid with _ | r4
              · rw [h4] at h3; simp at h3
              · obtain ⟨stm2, logm2⟩ := r4
                rw [h4] at h3
                simp only [Option.some.injEq, Prod.mk.injEq] at h3
                rw [← h3.1]
                exact prun_good mid ⟨true, false, 1⟩ stm2 logm2 hmid h4 goodP_after_start
            rw [← hmid2.1]
            refine ⟨rfl, rfl, ?_⟩
            obtain ⟨hg1, _⟩ := hgm
            simp only
            omega
        obtain ⟨hr1, ht1, hf1⟩ := hst1
        obtain ⟨_, _, hnp, hcnt⟩ :=
          prun_stopped post st1 st2 log2 hpost h2 hr1 ht1
        have hlog1len : log1.length = mid.length + 2 := by
          have := prun_length (PEvent.startCall :: (mid ++ [PEvent.stopCall]))
            pollerInit st1 log1 h1
          simpa using this
        have hdrop : log.drop (mid.length + 2) = log2 := by
          rw [← hlog, ← hlog1len]
          exact List.drop_left log1 log2
        first
        | · rw [hdrop]
            intro acts ha
            exact hnp acts ha
        | · rw [hdrop]
            omega }

/-- C9 counterexample: in the valid execution `start(); stop(); probe
completes`, the probe that was in flight when `stop` was called still
invokes the result callback after `stop` has returned — `poll()` calls
`onResult(result)` after `await runHealthcheck(config)` without
re-checking `running`. -/
theorem c9_counterexample :
    prun pollerInit [PEvent.startCall, PEvent.stopCall, PEvent.probeComplete] =
      some (⟨false, false, 0⟩, [[PAction.probeStarted], [], [PAction.callbackFired]]) ∧
    PAction.callbackFired ∈
      (([[PAction.probeStarted], [], [PAction.callbackFired]]).drop 2).flatten := by
  exact ⟨rfl, by decide⟩

/-- C9 witness: the amended theorem applied to the concrete trace
`start; stop; probe completes`. -/
theorem c9_poller_amended_witness :
    countCallbacks [[PAction.callbackFired]] ≤ 1 := by
  have h := c9_poller_amended [] [PEvent.probeComplete] ⟨false, false, 0⟩
    [[PAction.probeStarted], [], [PAction.callbackFired]] (by decide) (by decide) rfl
  simpa using h.2.2.1

end Devproc
